import Mathlib

/-!
Verification development for the dartsort spike-sorting repository
(files spike_psvae/subtract.py and spike_psvae/deconvolve.py).

The Python source is shallowly embedded: numpy arrays become Lean
functions or lists, float arithmetic becomes exact rational (or real)
arithmetic, and the float value -inf (used by the matching-pursuit
objective for refractory exclusion) becomes the bottom element of
WithBot. Every definition is translated from the source code; where a
numpy primitive has accumulation semantics (np.subtract.at) it is
modelled operationally as a fold of single-cell updates, and theorems
relate that fold to closed-form sums.
-/

namespace Dartsort

/-! ## np.subtract.at : accumulating scatter-subtract semantics

Both pipelines rely on np.subtract.at, which applies one subtraction
per index tuple, accumulating over repeated indices (unlike plain
fancy-indexed -=, which would write each cell only once). We model a
call np.subtract.at(A, idx, vals) as a left fold over the flattened
list of ((row, col), value) pairs, each step subtracting a single
value at a single cell. -/

/-- One np.subtract.at update: a (row, column) cell paired with the value
subtracted there. -/
abbrev Upd : Type := (ℕ × ℕ) × ℚ

/-- Operational model of np.subtract.at on a 2-d array viewed as a function:
subtract the updates one by one, in order, accumulating over repeated
cells. -/
def subtractAtList (A : ℕ → ℕ → ℚ) : List Upd → (ℕ → ℕ → ℚ)
  | [] => A
  | u :: rest =>
      subtractAtList (fun i j => if (i, j) = u.1 then A i j - u.2 else A i j) rest

/-- Sum of the values of the updates aimed at cell (i, j). -/
def cellLoad (l : List Upd) (i j : ℕ) : ℚ :=
  ((l.filter (fun u => u.1 = (i, j))).map Prod.snd).sum

/-! ## subtract.py detect_and_subtract : the actual subtraction

From subtract.py lines 1146-1185. After detection and denoising, the
denoised waveforms are subtracted from the (NaN-column-padded) raw
batch via

  np.subtract.at(padded_raw, (time_ix[:, :, None], chan_ix[:, None, :]), waveforms)

with time_ix[n, j] = spike_time_n + (2*spike_length - trough_offset) + j
for j < spike_length (from time_range = np.arange(2*L - trough, 3*L - trough))
and chan_ix[n, k] = extract_channel_index[spike_channel_n, k] for k < K.

A detected spike: trough time (relative to the double buffer), max
channel, and the denoised waveform (spike_length x K). -/

structure SubSpike where
  t : ℕ
  c : ℕ
  wf : ℕ → ℕ → ℚ

/-- The flattened list of single-cell updates performed by the
np.subtract.at call in detect_and_subtract. -/
def subUpdates (L K trough : ℕ) (chanIndex : ℕ → ℕ → ℕ)
    (spikes : List SubSpike) : List Upd :=
  spikes.flatMap (fun s =>
    (List.range L).flatMap (fun j =>
      (List.range K).map (fun k =>
        ((s.t + (2 * L - trough) + j, chanIndex s.c k), s.wf j k))))

/-- Model of the subtraction step of detect_and_subtract: the padded raw
batch after the np.subtract.at call. -/
def detectAndSubtractResidual (L K trough : ℕ) (chanIndex : ℕ → ℕ → ℕ)
    (padded : ℕ → ℕ → ℚ) (spikes : List SubSpike) : ℕ → ℕ → ℚ :=
  subtractAtList padded (subUpdates L K trough chanIndex spikes)

/-- What one spike contributes to residual cell (t, c): the sum of its
denoised samples landing there (several extract columns may map to the
same channel, e.g. the sentinel column). -/
def subSpikeContrib (L K trough : ℕ) (chanIndex : ℕ → ℕ → ℕ)
    (s : SubSpike) (t c : ℕ) : ℚ :=
  if s.t + (2 * L - trough) ≤ t ∧ t < s.t + (2 * L - trough) + L then
    ((List.range K).map (fun k =>
      if chanIndex s.c k = c then s.wf (t - (s.t + (2 * L - trough))) k else 0)).sum
  else 0

/-! ## deconvolve.py subtract_spike_train

From deconvolve.py lines 718-758. For each unit i present in the newly
accepted spike train, with unit_idx = unit_overlap[i] (boolean mask
over original units) and spt_idx = arange(2*n_time - 1) + spike_times,
the code performs (no-amplitude-scaling branch)

  np.subtract.at(self.obj, np.ix_(unit_idx, spt_idx.ravel()),
                 np.tile(2 * pconv, len(unit_spt)))

and (amplitude-scaling branch) the same on self.conv_result with values
(pconv[..., None] * scalings[in_unit]).reshape(n_overlap, -1).
np.subtract.at accumulates, so the order of the grouped per-unit calls
never affects a cell's total. The two branches lay their value columns
out differently against the spike-major ravel of spt_idx (whose column
c addresses time t_(c / convlen) + c % convlen, convlen = 2*n_time - 1):
np.tile repeats the convlen pconv columns once per spike, putting
2 * pconv[u, c % convlen] in column c, which matches the ravel, and we
flatten those updates spike-major; the reshape instead flattens the
(lag, spike) axes of pconv[..., None] * scalings in C order, putting
pconv[u, c / n] * scaling_(c % n) in column c for a group of n spikes,
which is a different column order whenever n > 1 — modelled verbatim in
sptUpdatesScaledCode. pconv i u l stands for the row of
pairwise_conv[up_up_map[i]] corresponding to overlapping original unit
u (the source packs the rows of overlapping units densely in increasing
unit order). -/

structure DeconvSpike where
  t : ℕ
  id : ℕ
  scaling : ℚ

/-- Flattened updates of the no-amplitude-scaling branch: every cell
(u, spike_time + l) with u overlapping the spike's unit receives
2 * pconv. -/
def sptUpdates (nUnits nTime : ℕ) (overlap : ℕ → ℕ → Bool)
    (pconv : ℕ → ℕ → ℕ → ℚ) (spt : List DeconvSpike) : List Upd :=
  spt.flatMap (fun s =>
    (List.range nUnits).flatMap (fun u =>
      if overlap s.id u then
        (List.range (2 * nTime - 1)).map (fun l => ((u, s.t + l), 2 * pconv s.id u l))
      else []))

/-- Flattened updates of the amplitude-scaling branch applied to
conv_result, with the exact column pairing the source performs. The
source iterates over present_units = np.unique(spt[:, 1]) (the sorted
distinct upsampled ids) and takes each id's group of spikes in train
order; for a group of n spikes it subtracts, at the cell addressed by
column c of spt_idx.ravel() — unit u, time t_(c / convlen) + c % convlen
— column c of (pconv[..., None] * scalings[in_unit]).reshape(n_overlap,
-1), which by C-order flattening of the (lag, spike) axes is
pconv[u, c / n] * scaling_(c % n). (List.dedup keeps one occurrence per
id, possibly in another order than np.unique; sorting restores the
source's ascending order, and since np.subtract.at accumulates, group
order cannot affect a cell's total anyway.) -/
def sptUpdatesScaledCode (nUnits nTime : ℕ) (overlap : ℕ → ℕ → Bool)
    (pconv : ℕ → ℕ → ℕ → ℚ) (spt : List DeconvSpike) : List Upd :=
  (List.insertionSort (fun a b => a ≤ b) (spt.map DeconvSpike.id).dedup).flatMap
    (fun i =>
      let g := spt.filter (fun s => s.id = i)
      (List.range nUnits).flatMap (fun u =>
        if overlap i u then
          (List.range (g.length * (2 * nTime - 1))).map (fun c =>
            ((u, (g.getD (c / (2 * nTime - 1)) ⟨0, 0, 0⟩).t + c % (2 * nTime - 1)),
              pconv i u (c / g.length) * (g.getD (c % g.length) ⟨0, 0, 0⟩).scaling))
        else []))

/-- Objective after the scatter-subtract stage of subtract_spike_train
(no-amplitude-scaling branch, before the final enforce_refractory). -/
def subtractSpikeTrainObj (nUnits nTime : ℕ) (overlap : ℕ → ℕ → Bool)
    (pconv : ℕ → ℕ → ℕ → ℚ) (obj : ℕ → ℕ → ℚ) (spt : List DeconvSpike) :
    ℕ → ℕ → ℚ :=
  subtractAtList obj (sptUpdates nUnits nTime overlap pconv spt)

/-- conv_result after the scatter-subtract stage of subtract_spike_train
(amplitude-scaling branch), as the source computes it. -/
def subtractSpikeTrainConv (nUnits nTime : ℕ) (overlap : ℕ → ℕ → Bool)
    (pconv : ℕ → ℕ → ℕ → ℚ) (conv : ℕ → ℕ → ℚ) (spt : List DeconvSpike) :
    ℕ → ℕ → ℚ :=
  subtractAtList conv (sptUpdatesScaledCode nUnits nTime overlap pconv spt)

/-! ## deconvolve.py compute_objective

From deconvolve.py lines 558-593:

  self.conv_result = np.empty([orig_n_unit, data_len + n_time - 1], np.float32)
  for rank in range(approx_rank):
      matmul_result = np.matmul(spatial[:, rank] * singular[:, [rank]], data.T)
      for unit: conv_result[unit, :] += np.convolve(matmul_result[unit], filters[unit], "full")
  obj = 2 * conv_result - norm                    (lambd None or 0)
  obj = (conv_result + 1/lambd)^2 / (norm + 1/lambd)   (lambd > 0)

np.empty allocates an UNINITIALIZED buffer and the rank loop accumulates
onto it with +=, so the resulting conv_result depends on whatever the
buffer held; we model the buffer contents as an explicit parameter
init. filters = self.temporal[:, :, rank] is the time-reversed temporal
factor stored by compress_templates, so the full convolution below is
the cross-correlation of the reconstructed template with the data. -/

/-- Row u of np.matmul(spatial[:, r] * singular[:, [r]], data.T): the data
spatially projected onto rank component r of unit u. -/
def matmulResult (nChan : ℕ) (spatial : ℕ → ℕ → ℕ → ℚ) (singular : ℕ → ℕ → ℚ)
    (data : ℕ → ℕ → ℚ) (r u tau : ℕ) : ℚ :=
  ((List.range nChan).map (fun c => spatial u r c * singular u r * data tau c)).sum

/-- np.convolve(a, v, mode="full") with a of length dataLen and v of length
nTime, evaluated at output index t (out-of-range samples read as 0). -/
def convFull (dataLen nTime : ℕ) (a v : ℕ → ℚ) (t : ℕ) : ℚ :=
  ((List.range (t + 1)).map (fun i =>
    (if i < dataLen then a i else 0) * (if t - i < nTime then v (t - i) else 0))).sum

/-- conv_result as the code leaves it: the uninitialized buffer contents
init plus the sum over SVD components of the full 1-d convolutions. -/
def convResult (init : ℕ → ℕ → ℚ) (rank dataLen nTime nChan : ℕ)
    (spatial : ℕ → ℕ → ℕ → ℚ) (singular : ℕ → ℕ → ℚ)
    (temporal : ℕ → ℕ → ℕ → ℚ) (data : ℕ → ℕ → ℚ) (u t : ℕ) : ℚ :=
  init u t
    + ((List.range rank).map (fun r =>
        convFull dataLen nTime (matmulResult nChan spatial singular data r u)
          (fun j => temporal u j r) t)).sum

/-- Objective, no-amplitude-scaling branch: obj = 2 * conv_result - norm. -/
def objNoScale (convRes : ℕ → ℕ → ℚ) (norm : ℕ → ℚ) (u t : ℕ) : ℚ :=
  2 * convRes u t - norm u

/-- Objective, amplitude-scaling branch:
obj = (conv_result + 1/lambd)^2 / (norm + 1/lambd). -/
def objScaled (lambd : ℚ) (convRes : ℕ → ℕ → ℚ) (norm : ℕ → ℚ) (u t : ℕ) : ℚ :=
  (convRes u t + 1 / lambd) ^ 2 / (norm u + 1 / lambd)

/-! ## deconvolve.py find_peaks : per-spike amplitude scaling

From deconvolve.py lines 689-694: when lambd > 0 the accepted scaling
of a spike is computed once, in closed form, from the objective state
at acceptance time (scalings = (conv_result[id, t] + 1/lambd) /
(norm[id] + 1/lambd)); it is never recomputed after the spike is
placed (subtract_spike_train and run_batch only append it). This is
the ridge-regularized least-squares scalar for prior strength
1/lambd. We study its dependence on lambd over the reals. -/

/-- The closed-form amplitude scaling of find_peaks as a function of the
regularization lambd, the matched-filter value conv = conv_result[id, t]
and the template norm = norm[id]. -/
def findPeaksScaling (lambd conv norm : ℚ) : ℚ :=
  (conv + 1 / lambd) / (norm + 1 / lambd)

/-! ## Double-buffered batch loading with edge padding

Shared pattern of subtract.py subtraction_batch (lines 698-730, with
buffer = 2 * spike_length_samples) and deconvolve.py run_batch (lines
778-801, with buffer = 300):

  s_end      = min(end_sample, s_start + batch_len)
  load_start = max(start_sample, s_start - buffer)
  load_end   = min(end_sample, s_end + buffer)
  data       = read_data(bin, load_start, load_end, ...)
  pad_left   = buffer                             if load_start == start_sample else 0
  pad_right  = buffer - (end_sample - s_end)      if load_end == end_sample else 0
  data       = np.pad(data, [(pad_left, pad_right), (0, 0)], mode="edge")
  assert data.shape == (2 * buffer + s_end - s_start, n_channels)

A row of the recording is an opaque value (one multichannel sample);
np.pad mode="edge" replicates the first or last loaded row. -/

def sEndD (endSample sStart batchLen : ℤ) : ℤ :=
  min endSample (sStart + batchLen)

def loadStartD (startSample sStart buffer : ℤ) : ℤ :=
  max startSample (sStart - buffer)

def loadEndD (endSample sStart batchLen buffer : ℤ) : ℤ :=
  min endSample (sEndD endSample sStart batchLen + buffer)

def padLeftD (startSample sStart buffer : ℤ) : ℤ :=
  if loadStartD startSample sStart buffer = startSample then buffer else 0

def padRightD (endSample sStart batchLen buffer : ℤ) : ℤ :=
  if loadEndD endSample sStart batchLen buffer = endSample then
    buffer - (endSample - sEndD endSample sStart batchLen)
  else 0

/-- Rows of the recording read by read_data over [a, b). -/
def loadedRows {α : Type} (rec : ℤ → α) (a b : ℤ) : List α :=
  (List.range (b - a).toNat).map (fun (i : ℕ) => rec (a + (i : ℤ)))

/-- np.pad(rows, [(pl, pr), (0, 0)], mode="edge"): replicate the boundary
row on each side. -/
def padEdgeList {α : Type} [Inhabited α] (rows : List α) (pl pr : ℕ) : List α :=
  List.replicate pl rows.headI ++ rows ++ List.replicate pr (rows.getLastD default)

/-- The loaded-and-padded batch data of subtraction_batch / run_batch. -/
def loadPadded {α : Type} [Inhabited α] (rec : ℤ → α)
    (startSample endSample sStart batchLen buffer : ℤ) : List α :=
  padEdgeList
    (loadedRows rec (loadStartD startSample sStart buffer)
      (loadEndD endSample sStart batchLen buffer))
    (padLeftD startSample sStart buffer).toNat
    (padRightD endSample sStart batchLen buffer).toNat

/-! ## subtract.py : resumable jobs and the watermark

From subtract.py: jobs = list(enumerate(range(start_sample, end_sample,
batch_len_samples))) (lines 314-323); get_output_h5 (lines 1304-1310)
opens an existing store in "r+" mode when it exists and overwrite is
false, reading last_sample = spike_index[-1, 0] if the stored
spike_index is nonempty (0 otherwise, and 0 whenever a fresh store is
created); lines 358-364 keep exactly the jobs with start >= last_sample. -/

/-- enumerate(range(start_sample, end_sample, batch_len_samples)). -/
def subtractionJobs (startSample endSample batchLen : ℕ) : List (ℕ × ℕ) :=
  (List.range ((endSample - startSample + batchLen - 1) / batchLen)).map
    (fun k => (k, startSample + k * batchLen))

/-- The watermark get_output_h5 reports: the time in the last stored
spike_index row when the store exists, is kept (not overwritten) and is
nonempty; 0 otherwise. storedTimes is the first column of the stored
spike_index. -/
def lastSampleOf (h5Exists overwrite : Bool) (storedTimes : List ℕ) : ℕ :=
  if h5Exists && !overwrite && !storedTimes.isEmpty then storedTimes.getLastD 0
  else 0

/-- The jobs kept on re-invocation: those with start >= last_sample. -/
def resumeJobs (startSample endSample batchLen lastSample : ℕ) : List (ℕ × ℕ) :=
  (subtractionJobs startSample endSample batchLen).filter
    (fun j => decide (lastSample ≤ j.2))

/-! ## subtract.py subtraction_batch : finalizing a batch

From subtract.py lines 793-820:

  spike_index = np.concatenate(spike_index, axis=0)    # across thresholds
  sort = np.argsort(spike_index[:, 0]); spike_index = spike_index[sort]
  spike_time_min = 0
  if s_start == start_sample: spike_time_min = trough_offset
  spike_time_max = s_end - s_start
  if load_end == end_sample: spike_time_max -= spike_length_samples - trough_offset
  minix = np.searchsorted(spike_index[:, 0], spike_time_min, side="left")
  maxix = np.searchsorted(spike_index[:, 0], spike_time_max, side="right")
  spike_index = spike_index[minix:maxix]

np.argsort-and-gather is modelled as a sort by time; on a sorted array,
searchsorted side="left" is the count of entries strictly below the
bound and side="right" the count of entries at most the bound. A spike
is (batch-relative trough time, max channel). -/

def spikeTimeMin (startSample sStart trough : ℤ) : ℤ :=
  if sStart = startSample then trough else 0

def spikeTimeMax (endSample sStart batchLen spikeLen trough : ℤ) : ℤ :=
  (sEndD endSample sStart batchLen - sStart)
    - (if loadEndD endSample sStart batchLen (2 * spikeLen) = endSample then
        spikeLen - trough
      else 0)

/-- Sort the concatenated detections by trough time. -/
def sortByTime (spikes : List (ℤ × ℕ)) : List (ℤ × ℕ) :=
  List.insertionSort (fun a b => a.1 ≤ b.1) spikes

/-- The finalized spike index of a subtraction batch: concatenate over
thresholds, sort by time, then keep the searchsorted slice
[minix:maxix]. -/
def subtractionFinalize (startSample endSample sStart batchLen spikeLen trough : ℤ)
    (detections : List (List (ℤ × ℕ))) : List (ℤ × ℕ) :=
  let sorted := sortByTime (detections.flatMap id)
  let lo := spikeTimeMin startSample sStart trough
  let hi := spikeTimeMax endSample sStart batchLen spikeLen trough
  let minix := sorted.countP (fun s => decide (s.1 < lo))
  let maxix := sorted.countP (fun s => decide (s.1 ≤ hi))
  (sorted.drop minix).take (maxix - minix)

/-! ## deconvolve.py find_peaks and high_res_peak

From deconvolve.py lines 655-696 (find_peaks) and 595-653
(high_res_peak), with refrac_radius = n_time - 1 (line 227) and the
sub-sample window radius = up_factor // 2 + up_factor % 2 (line 213).
Objective entries are floats that the engine drives to -inf for
refractory exclusion; we model them as WithBot over an arbitrary linear
order (find_peaks only compares objective values), with ⊥ standing for
-inf. scipy.signal.argrelmax(data, order=k) with its default clip mode
marks index i iff data[i] is strictly greater than data at every index
within distance k, indices clipped to the array bounds; the clipped
reads are modelled with truncated subtraction and min. The band-limited
interpolation signal.resample of the window around a valid peak is an
opaque numeric step; its argmax is abstracted as the function shiftSel,
whose result only selects entries of the peak_to_template_idx /
peak_time_jitter tables (deconvolve.py lines 218-223). Candidates whose
window edge reads -inf are flagged invalid, their unit row is forced to
-inf on the refractory window [t - (n_time - 1), t] (lines 628-636),
and the returned train gives them the fall-back id unit * up_factor
and an unshifted time (lines 673-686). -/

/-- Column t of the objective (out-of-range reads default to ⊥). -/
def colAt {β : Type} [LinearOrder β] (obj : List (List (WithBot β))) (t : ℕ) :
    List (WithBot β) :=
  obj.map (fun row => row.getD t ⊥)

/-- Number of columns of the objective. -/
def objLen {β : Type} (obj : List (List (WithBot β))) : ℕ :=
  (obj.headD []).length

/-- np.max(obj, axis=0). -/
def maxAcrossTemp {β : Type} [LinearOrder β] (obj : List (List (WithBot β))) :
    List (WithBot β) :=
  (List.range (objLen obj)).map (fun t => (colAt obj t).foldl max ⊥)

/-- One index test of scipy argrelmax in clip mode: strictly greater than
every neighbour within the order, boundary indices clipped. -/
def isRelMax {β : Type} [LinearOrder β] (xs : List (WithBot β))
    (order i : ℕ) : Bool :=
  (List.range' 1 order).all (fun s =>
    decide (xs.getD (min (i + s) (xs.length - 1)) ⊥ < xs.getD i ⊥)
    && decide (xs.getD (i - s) ⊥ < xs.getD i ⊥))

/-- scipy.signal.argrelmax(xs, order=order)[0]. -/
def argRelMax {β : Type} [LinearOrder β] (order : ℕ) (xs : List (WithBot β)) :
    List ℕ :=
  (List.range xs.length).filter (fun i => isRelMax xs order i)

/-- The slice max_across_temp[n_time - 1 : obj_len - n_time] searched for
peaks. -/
def slicedMax {β : Type} [LinearOrder β] (nTime : ℕ)
    (obj : List (List (WithBot β))) : List (WithBot β) :=
  ((maxAcrossTemp obj).drop (nTime - 1)).take (objLen obj - nTime - (nTime - 1))

/-- Candidate spike times of one find_peaks pass: argrelmax of order
n_time - 1 on the slice, shifted back by n_time - 1, then thresholded. -/
def candTimes {β : Type} [LinearOrder β] (nTime : ℕ) (threshold : β)
    (obj : List (List (WithBot β))) : List ℕ :=
  ((argRelMax (nTime - 1) (slicedMax nTime obj)).map (fun i => i + (nTime - 1))).filter
    (fun t => decide ((threshold : WithBot β) < (maxAcrossTemp obj).getD t ⊥))

/-- np.argmax: index of the first maximal entry. -/
def argmaxIdx {β : Type} [LinearOrder β] (l : List (WithBot β)) : ℕ :=
  (List.range l.length).foldl
    (fun best i => if l.getD best ⊥ < l.getD i ⊥ then i else best) 0

/-- spike_ids = np.argmax(obj[:, spike_times], axis=0): best unit at t. -/
def candUnit {β : Type} [LinearOrder β] (obj : List (List (WithBot β)))
    (t : ℕ) : ℕ :=
  argmaxIdx (colAt obj t)

/-- radius = up_factor // 2 + up_factor % 2. -/
def upRadius (factor : ℕ) : ℕ :=
  factor / 2 + factor % 2

/-- invalid_idx of high_res_peak: the first or last row of the window
around the peak (offsets -radius and +radius) reads -inf. -/
def invalidCand {β : Type} [LinearOrder β] (obj : List (List (WithBot β)))
    (factor u t : ℕ) : Bool :=
  decide ((obj.getD u []).getD (t - upRadius factor) ⊥ = ⊥)
  || decide ((obj.getD u []).getD (t + upRadius factor) ⊥ = ⊥)

/-- peak_to_template_idx = np.append(np.arange(radius, -1, -1),
(factor - 1) - np.arange(radius)). -/
def peakToTemplateIdx (factor : ℕ) : List ℕ :=
  (List.range (upRadius factor + 1)).reverse
    ++ (List.range (upRadius factor)).map (fun k => factor - 1 - k)

/-- peak_time_jitter = np.append([0], np.array([0, 1]).repeat(radius)). -/
def peakTimeJitter (factor : ℕ) : List ℕ :=
  0 :: (List.replicate (upRadius factor) 0 ++ List.replicate (upRadius factor) 1)

/-- Replace row u of the objective (no-op out of range, as in the
modelled in-bounds uses). -/
def modifyRow {β : Type} (obj : List (List (WithBot β))) (u : ℕ)
    (f : List (WithBot β) → List (WithBot β)) : List (List (WithBot β)) :=
  obj.set u (f (obj.getD u []))

/-- Force the given cells of a row to -inf. -/
def setBotRow {β : Type} (row : List (WithBot β)) (ts : List ℕ) :
    List (WithBot β) :=
  ts.foldl (fun r t => r.set t ⊥) row

/-- The objective after high_res_peak turned off the invalid candidates:
obj[unit, t - refrac_radius .. t] = -inf for every invalid candidate
(only reached when up_factor is not 1). -/
def turnOffObj {β : Type} [LinearOrder β] (nTime factor : ℕ) (threshold : β)
    (obj : List (List (WithBot β))) : List (List (WithBot β)) :=
  (candTimes nTime threshold obj).foldl
    (fun acc t =>
      if factor ≠ 1 ∧ invalidCand obj factor (candUnit obj t) t = true then
        modifyRow acc (candUnit obj t)
          (fun row => setBotRow row
            ((List.range nTime).map (fun k => t - (nTime - 1) + k)))
      else acc) obj

/-- The new_spike_train entry for the candidate at position i with time t:
time shifted to voltage space by n_time - 1; valid candidates (when
up_factor is not 1) get the sub-sample shift chosen by the opaque
resample argmax, invalid ones fall back on the defaults. -/
def fpEntry {β : Type} [LinearOrder β] (obj : List (List (WithBot β)))
    (nTime factor : ℕ) (shiftSel : ℕ → ℕ) (i t : ℕ) : ℤ × ℕ :=
  if factor = 1 ∨ invalidCand obj factor (candUnit obj t) t = true then
    ((t : ℤ) - ((nTime : ℤ) - 1), candUnit obj t * factor)
  else
    (((t + (peakTimeJitter factor).getD (shiftSel i) 0 : ℕ) : ℤ) - ((nTime : ℤ) - 1),
      candUnit obj t * factor + (peakToTemplateIdx factor).getD (shiftSel i) 0)

/-- Build the train entries, tracking each candidate's position. -/
def fpTrainAux (f : ℕ → ℕ → ℤ × ℕ) : ℕ → List ℕ → List (ℤ × ℕ)
  | _, [] => []
  | i, t :: ts => f i t :: fpTrainAux f (i + 1) ts

/-- The new_spike_train returned by one find_peaks pass. -/
def fpTrain {β : Type} [LinearOrder β] (nTime : ℕ) (threshold : β)
    (factor : ℕ) (shiftSel : ℕ → ℕ) (obj : List (List (WithBot β))) :
    List (ℤ × ℕ) :=
  fpTrainAux (fun i t => fpEntry obj nTime factor shiftSel i t) 0
    (candTimes nTime threshold obj)

/-- Concrete objective for the C6 witness: one unit, 9 objective columns,
peaks at columns 2 and 5. -/
def c6obj : List (List (WithBot ℤ)) :=
  [[((0 : ℤ) : WithBot ℤ), ((0 : ℤ) : WithBot ℤ), ((5 : ℤ) : WithBot ℤ),
    ((0 : ℤ) : WithBot ℤ), ((0 : ℤ) : WithBot ℤ), ((5 : ℤ) : WithBot ℤ),
    ((0 : ℤ) : WithBot ℤ), ((0 : ℤ) : WithBot ℤ), ((0 : ℤ) : WithBot ℤ)]]

/-- Concrete objective for C4: one unit, 7 columns, a -inf cell at
column 2 left by an earlier exclusion, and a candidate peak at column
3 whose window (radius 1 for up_factor 2) touches it. -/
def c4obj : List (List (WithBot ℤ)) :=
  [[((0 : ℤ) : WithBot ℤ), ((0 : ℤ) : WithBot ℤ), ⊥, ((5 : ℤ) : WithBot ℤ),
    ((0 : ℤ) : WithBot ℤ), ((0 : ℤ) : WithBot ℤ), ((0 : ℤ) : WithBot ℤ)]]

/-! ## deconvolve.py upsample_templates_mp

From deconvolve.py lines 233-267 (upsample not 1):

  self.unit_up_factor = np.power(4, np.floor(np.log2(np.max(temps.ptp(0), 0))))
  self.up_factor = min(max_upsample, int(np.max(self.unit_up_factor)))
  self.unit_up_factor[self.unit_up_factor > max_upsample] = max_upsample
  self.unit_up_factor = np.maximum(1, self.unit_up_factor)
  for i in range(self.n_unit):
      skip = self.up_factor // u_factor
      self.up_up_map[i*up : (i+1)*up] = i*up + np.arange(0, up, skip).repeat(skip)

The float arithmetic is modelled exactly over ℚ, with
np.floor(np.log2 x) as Int.log 2 x (the greatest k with 2 ^ k ≤ x);
ptps lists each unit's maximum peak-to-peak template amplitude. -/

/-- np.power(4, np.floor(np.log2 ptp)): the raw per-unit factor. -/
def rawFactor (ptp : ℚ) : ℚ :=
  (4 : ℚ) ^ (Int.log 2 ptp)

/-- np.max over the raw factors (numpy reduction over the array). -/
def maxRawFactor (ptps : List ℚ) : ℚ :=
  (ptps.map rawFactor).foldl max 0

/-- up_factor = min(max_upsample, int(np.max(unit_up_factor))), computed
before the clamping. -/
def upFactorOf (maxUp : ℕ) (ptps : List ℚ) : ℕ :=
  min maxUp (Int.toNat ⌊maxRawFactor ptps⌋)

/-- The clamped per-unit factor: values above max_upsample are replaced
by max_upsample, then everything is raised to at least 1. -/
def unitUpFactor (maxUp : ℕ) (ptp : ℚ) : ℚ :=
  max 1 (if rawFactor ptp > (maxUp : ℚ) then (maxUp : ℚ) else rawFactor ptp)

/-- Closed form for the accumulating scatter-subtract: each cell ends up
decremented by the sum of all update values aimed at that cell,
independent of the order of the updates. -/
theorem subtractAtList_apply (l : List Upd) (A : ℕ → ℕ → ℚ) (i j : ℕ) :
    subtractAtList A l i j
      = A i j - ((l.filter (fun u => u.1 = (i, j))).map Prod.snd).sum := by
  induction l generalizing A with
  | nil => simp [subtractAtList]
  | cons u rest ih =>
      by_cases h : u.1 = (i, j)
      · simp [subtractAtList, ih, h, sub_sub]
      · have h2 : ¬((i, j) = u.1) := fun hh => h hh.symm
        simp [subtractAtList, ih, h, h2]

/-- The load of a concatenation splits into the sum of the loads. -/
theorem cellLoad_append (a b : List Upd) (i j : ℕ) :
    cellLoad (a ++ b) i j = cellLoad a i j + cellLoad b i j := by
  simp [cellLoad]

/-- The load of a flatMap over spikes is the sum over spikes of the
per-spike load. -/
theorem cellLoad_flatMap {α : Type} (s : List α) (f : α → List Upd) (i j : ℕ) :
    cellLoad (s.flatMap f) i j = (s.map (fun x => cellLoad (f x) i j)).sum := by
  induction s with
  | nil => simp [cellLoad]
  | cons x xs ih => simp [List.flatMap_cons, cellLoad_append, ih]

/-- The load of a list of updates built by mapping an index/value pair over
a list reduces to an indicator sum. -/
theorem cellLoad_map {α : Type} (l : List α) (idx : α → ℕ × ℕ) (v : α → ℚ)
    (i j : ℕ) :
    cellLoad (l.map (fun k => (idx k, v k))) i j
      = (l.map (fun k => if idx k = (i, j) then v k else 0)).sum := by
  induction l with
  | nil => simp [cellLoad]
  | cons k ks ih =>
      by_cases h : idx k = (i, j) <;>
        simp [cellLoad, List.filter_cons, h] at ih ⊢ <;> simp [ih]

/-- Indicator-sum picking lemma: summing an indicator over offsets l with
target condition tau + l = t collapses to the single covered lag. -/
theorem sum_range_pick (n tau t : ℕ) (v : ℕ → ℚ) :
    ((List.range n).map (fun l => if tau + l = t then v l else 0)).sum
      = if tau ≤ t ∧ t < tau + n then v (t - tau) else 0 := by
  induction n with
  | zero =>
      have h : ¬(tau ≤ t ∧ t < tau) := by omega
      simp [h]
  | succ m ih =>
      rw [List.range_succ, List.map_append, List.sum_append, ih]
      by_cases h1 : tau ≤ t ∧ t < tau + m
      · have h2 : ¬(tau + m = t) := by omega
        have h3 : tau ≤ t ∧ t < tau + (m + 1) := by omega
        simp [h1, h2, h3]
      · by_cases h2 : tau + m = t
        · have h3 : tau ≤ t ∧ t < tau + (m + 1) := by omega
          have h4 : t - tau = m := by omega
          simp [h1, h2, h3, h4]
        · have h3 : ¬(tau ≤ t ∧ t < tau + (m + 1)) := by omega
          simp [h1, h2, h3]

/-- Indicator-sum picking lemma for an equality target. -/
theorem sum_range_pick_eq (n u : ℕ) (g : ℕ → ℚ) :
    ((List.range n).map (fun x => if x = u then g x else 0)).sum
      = if u < n then g u else 0 := by
  induction n with
  | zero => simp
  | succ m ih =>
      rw [List.range_succ, List.map_append, List.sum_append, ih]
      by_cases h1 : u < m
      · have h2 : ¬(m = u) := by omega
        have h3 : u < m + 1 := by omega
        simp [h1, h2, h3]
      · by_cases h2 : m = u
        · subst h2
          simp [h1]
        · have h3 : ¬(u < m + 1) := by omega
          simp [h1, h2, h3]

theorem detectAndSubtractResidual_eq (L K trough : ℕ)
    (chanIndex : ℕ → ℕ → ℕ) (padded : ℕ → ℕ → ℚ) (spikes : List SubSpike)
    (t c : ℕ) :
    detectAndSubtractResidual L K trough chanIndex padded spikes t c
      = padded t c
        - (spikes.map (fun s => subSpikeContrib L K trough chanIndex s t c)).sum := by
  have h0 : detectAndSubtractResidual L K trough chanIndex padded spikes t c
      = padded t c - cellLoad (subUpdates L K trough chanIndex spikes) t c :=
    subtractAtList_apply _ _ _ _
  rw [h0]
  have hload :
      cellLoad (subUpdates L K trough chanIndex spikes) t c
        = (spikes.map (fun s => subSpikeContrib L K trough chanIndex s t c)).sum := by
    rw [subUpdates, cellLoad_flatMap]
    congr 1
    apply List.map_congr_left
    intro s _
    rw [cellLoad_flatMap]
    have hj : ∀ j : ℕ,
        cellLoad ((List.range K).map (fun k =>
            ((s.t + (2 * L - trough) + j, chanIndex s.c k), s.wf j k))) t c
          = if s.t + (2 * L - trough) + j = t then
              ((List.range K).map (fun k =>
                if chanIndex s.c k = c then s.wf j k else 0)).sum
            else 0 := by
      intro j
      rw [cellLoad_map (List.range K)
        (fun k => (s.t + (2 * L - trough) + j, chanIndex s.c k)) (fun k => s.wf j k)]
      by_cases ht : s.t + (2 * L - trough) + j = t
      · simp [ht, Prod.mk.injEq]
      · simp only [Prod.mk.injEq, ht, false_and, if_false]
        simp
    calc ((List.range L).map (fun j =>
            cellLoad ((List.range K).map (fun k =>
              ((s.t + (2 * L - trough) + j, chanIndex s.c k), s.wf j k))) t c)).sum
        = ((List.range L).map (fun j =>
            if (s.t + (2 * L - trough)) + j = t then
              ((List.range K).map (fun k =>
                if chanIndex s.c k = c then s.wf j k else 0)).sum
            else 0)).sum := by
          apply congrArg
          apply List.map_congr_left
          intro j _
          exact hj j
      _ = subSpikeContrib L K trough chanIndex s t c := by
          rw [sum_range_pick L (s.t + (2 * L - trough)) t]
          rfl
  rw [hload]

/-- Helper: the load that one deconv spike train places on cell (u, t)
when each spike contributes value (vals s l) at lag l on overlapping
units. -/
theorem sptUpdates_load (nUnits nTime : ℕ) (overlap : ℕ → ℕ → Bool)
    (vals : DeconvSpike → ℕ → ℕ → ℚ) (spt : List DeconvSpike) (u t : ℕ)
    (hu : u < nUnits) :
    cellLoad (spt.flatMap (fun s =>
        (List.range nUnits).flatMap (fun w =>
          if overlap s.id w then
            (List.range (2 * nTime - 1)).map (fun l => ((w, s.t + l), vals s w l))
          else []))) u t
      = (spt.map (fun s =>
          if overlap s.id u ∧ s.t ≤ t ∧ t < s.t + (2 * nTime - 1) then
            vals s u (t - s.t)
          else 0)).sum := by
  rw [cellLoad_flatMap]
  congr 1
  apply List.map_congr_left
  intro s _
  rw [cellLoad_flatMap]
  have hw : ∀ w : ℕ,
      cellLoad (if overlap s.id w then
          (List.range (2 * nTime - 1)).map (fun l => ((w, s.t + l), vals s w l))
        else []) u t
        = if w = u then
            (if overlap s.id u ∧ s.t ≤ t ∧ t < s.t + (2 * nTime - 1) then
              vals s u (t - s.t) else 0)
          else 0 := by
    intro w
    by_cases hwu : w = u
    · subst hwu
      rw [if_pos rfl]
      by_cases hov : overlap s.id w
      · rw [if_pos hov,
          cellLoad_map (List.range (2 * nTime - 1)) (fun l => (w, s.t + l))
            (fun l => vals s w l)]
        simp only [Prod.mk.injEq, eq_self_iff_true, true_and]
        rw [sum_range_pick (2 * nTime - 1) s.t t (fun l => vals s w l)]
        simp [hov]
      · rw [if_neg hov]
        simp [cellLoad, hov]
    · rw [if_neg hwu]
      by_cases hov : overlap s.id w
      · rw [if_pos hov,
          cellLoad_map (List.range (2 * nTime - 1)) (fun l => (w, s.t + l))
            (fun l => vals s w l)]
        simp [Prod.mk.injEq, hwu]
      · rw [if_neg hov]
        simp [cellLoad]
  have hrw : ((List.range nUnits).map (fun w =>
        cellLoad (if overlap s.id w then
          (List.range (2 * nTime - 1)).map (fun l => ((w, s.t + l), vals s w l))
        else []) u t)).sum
      = ((List.range nUnits).map (fun w =>
          if w = u then
            (if overlap s.id u ∧ s.t ≤ t ∧ t < s.t + (2 * nTime - 1) then
              vals s u (t - s.t) else 0)
          else 0)).sum := by
    apply congrArg
    apply List.map_congr_left
    intro w _
    exact hw w
  rw [hrw, sum_range_pick_eq nUnits u, if_pos hu]

/-- C2 (code bug): subtraction uses accumulating (scatter-add) semantics
wherever subtracted items overlap — fully realized at two of the three
np.subtract.at sites, broken at the third. (1) In detect_and_subtract,
every (time, channel) cell of the residual is decremented by the sum of
all overlapping denoised-waveform samples that cover it, each
overlapping spike contributing independently. (2) In matching pursuit,
subtract_spike_train (no-amplitude-scaling branch) decrements every
(unit, time) cell of the objective by the sum, over all newly accepted
spikes whose windows cover that cell, of the corresponding
pairwise-convolution values (times 2). (3) The amplitude-scaling branch
is meant to decrement conv_result the same way with each value scaled by
its spike's accepted scaling, but the source pairs values with the wrong
cells whenever an upsampled id repeats within the accepted train: with
one unit, n_time = 2 (window length 3), pconv giving lag l the value l,
and two accepted spikes of id 0 at times 0 and 10 with scalings 1 and 2,
the claimed accumulation decrements cell (0, 1) by
pconv(lag 1) * scaling(spike 0) = 1, yielding -1, but the code
decrements it by pconv(lag 0) * scaling(spike 1) = 0, yielding 0. -/
theorem C2_subtraction_scatter_add (L K trough nUnits nTime : ℕ)
    (chanIndex : ℕ → ℕ → ℕ) (padded : ℕ → ℕ → ℚ) (spikes : List SubSpike)
    (overlap : ℕ → ℕ → Bool) (pconv : ℕ → ℕ → ℕ → ℚ)
    (obj : ℕ → ℕ → ℚ) (spt : List DeconvSpike) :
    (∀ t c,
      detectAndSubtractResidual L K trough chanIndex padded spikes t c
        = padded t c
          - (spikes.map (fun s => subSpikeContrib L K trough chanIndex s t c)).sum)
    ∧ (∀ u t, u < nUnits →
        subtractSpikeTrainObj nUnits nTime overlap pconv obj spt u t
          = obj u t
            - (spt.map (fun s =>
                if overlap s.id u ∧ s.t ≤ t ∧ t < s.t + (2 * nTime - 1) then
                  2 * pconv s.id u (t - s.t)
                else 0)).sum)
    ∧ subtractSpikeTrainConv 1 2 (fun _ _ => true) (fun _ _ l => (l : ℚ))
        (fun _ _ => 0) [⟨0, 0, 1⟩, ⟨10, 0, 2⟩] 0 1 = 0
    ∧ (0 : ℚ)
        - (([⟨0, 0, 1⟩, ⟨10, 0, 2⟩] : List DeconvSpike).map (fun s =>
            if s.t ≤ 1 ∧ 1 < s.t + (2 * 2 - 1) then
              (fun _ _ l => (l : ℚ)) s.id 0 (1 - s.t) * s.scaling
            else 0)).sum = -1
    ∧ (0 : ℚ) ≠ -1 := by
  refine ⟨fun t c => detectAndSubtractResidual_eq L K trough chanIndex padded spikes t c,
    fun u t hu => ?_, ?_, by norm_num, by norm_num⟩
  · have h0 : subtractSpikeTrainObj nUnits nTime overlap pconv obj spt u t
        = obj u t - cellLoad (sptUpdates nUnits nTime overlap pconv spt) u t :=
      subtractAtList_apply _ _ _ _
    rw [h0, sptUpdates,
      sptUpdates_load nUnits nTime overlap (fun s w l => 2 * pconv s.id w l) spt u t hu]
  · have hd : (([⟨0, 0, 1⟩, ⟨10, 0, 2⟩] : List DeconvSpike).map DeconvSpike.id).dedup
        = [0] := by decide
    norm_num [subtractSpikeTrainConv, sptUpdatesScaledCode, hd, subtractAtList,
      List.insertionSort, List.orderedInsert, List.range_succ,
      List.getD_cons_zero, List.getD_cons_succ]

/-- Witness for C2 at a concrete input: one unit, template length 1,
one accepted spike of unit 0 at time 0 with pairwise convolution 1
everywhere drives objective cell (0, 0) from 0 down to -2. -/
theorem C2_subtraction_scatter_add_witness :
    subtractSpikeTrainObj 1 1 (fun _ _ => true) (fun _ _ _ => 1) (fun _ _ => 0)
      [⟨0, 0, 1⟩] 0 0 = -2 := by
  have h := (C2_subtraction_scatter_add 1 1 1 1 1 (fun _ _ => 0) (fun _ _ => 0) []
    (fun _ _ => true) (fun _ _ _ => 1) (fun _ _ => 0)
    [⟨0, 0, 1⟩]).2.1 0 0 (by decide)
  simpa using h

/-- C1 (code bug): compute_objective accumulates the per-rank convolutions
onto an np.empty buffer that is never zeroed, so the objective it
produces is 2 * (garbage + sum of convolutions) - norm, not the claimed
2 * (sum of convolutions) - norm. Concretely, with one unit, rank 1,
one channel, one sample, all factors and data equal to 1 and norm 1,
the true cross-correlation sum is 1, so the claim demands objective
2 * 1 - 1 = 1; if the uninitialized buffer happens to hold 1 the code
produces 3. Only a zero-filled buffer (init = 0) realizes the claim. -/
theorem C1_compute_objective_empty_buffer :
    objNoScale
        (convResult (fun _ _ => 1) 1 1 1 1 (fun _ _ _ => 1) (fun _ _ => 1)
          (fun _ _ _ => 1) (fun _ _ => 1))
        (fun _ => 1) 0 0 = 3
    ∧ objNoScale
        (convResult (fun _ _ => 0) 1 1 1 1 (fun _ _ _ => 1) (fun _ _ => 1)
          (fun _ _ _ => 1) (fun _ _ => 1))
        (fun _ => 1) 0 0 = 1
    ∧ (3 : ℚ) ≠ 1 := by
  refine ⟨?_, ?_, by norm_num⟩ <;>
    norm_num [objNoScale, convResult, convFull, matmulResult, List.range_succ]

/-- Counterexample to C3 as frozen: as lambd tends to 0 from above the
recovered scaling does NOT converge to the unconstrained least-squares
scalar conv / norm; at conv = 0, norm = 1 it converges to 1, not to
0 / 1 = 0. (The limit that recovers conv / norm is lambd tending to
infinity, i.e. vanishing regularization strength 1/lambd.) -/
theorem C3_scaling_lambda_zero_counterexample :
    ¬ Filter.Tendsto (fun l : ℚ => findPeaksScaling l 0 1)
        (nhdsWithin 0 (Set.Ioi 0)) (nhds (0 / 1)) := by
  intro hcontra
  have heq : ∀ l ∈ Set.Ioi (0 : ℚ), findPeaksScaling l 0 1 = (l + 1)⁻¹ := by
    intro l hl
    have hl2 : (0 : ℚ) < l := hl
    have hl0 : l ≠ 0 := ne_of_gt hl2
    have hl1 : l + 1 ≠ 0 := by positivity
    rw [findPeaksScaling]
    field_simp
  have hc : ContinuousAt (fun l : ℚ => (l + 1)⁻¹) 0 := by
    apply ContinuousAt.inv₀
    · fun_prop
    · norm_num
  have h2 : Filter.Tendsto (fun l : ℚ => (l + 1)⁻¹)
      (nhdsWithin 0 (Set.Ioi 0)) (nhds 1) := by
    have h3 := hc.tendsto
    norm_num at h3
    exact h3.mono_left nhdsWithin_le_nhds
  have h1 : Filter.Tendsto (fun l : ℚ => findPeaksScaling l 0 1)
      (nhdsWithin 0 (Set.Ioi 0)) (nhds 1) := by
    apply h2.congr'
    filter_upwards [eventually_nhdsWithin_of_forall heq] with l hl
    exact hl.symm
  have huniq : (0 / 1 : ℚ) = 1 := tendsto_nhds_unique hcontra h1
  norm_num at huniq

/-- C3 (amended): the scaling accepted for each spike is the one-shot
closed-form ridge-regularized least-squares scalar computed at
acceptance time from conv_result and norm, and as the regularization
lambd tends to INFINITY (so the prior strength 1/lambd tends to 0) the
recovered scaling converges to the unconstrained least-squares scalar
conv / norm, for every conv and every positive norm. (As frozen the
claim stated the limit lambd tending to 0, where the scaling in fact
converges to 1, the disabled-scaling value.) -/
theorem C3_scaling_ridge_limit (c n : ℚ) (h : 0 < n) :
    Filter.Tendsto (fun l => findPeaksScaling l c n) Filter.atTop (nhds (c / n)) := by
  have hinv : Filter.Tendsto (fun l : ℚ => 1 / l) Filter.atTop (nhds 0) := by
    simpa [one_div] using tendsto_inv_atTop_zero
  have hnum : Filter.Tendsto (fun l : ℚ => c + 1 / l) Filter.atTop (nhds (c + 0)) :=
    tendsto_const_nhds.add hinv
  have hden : Filter.Tendsto (fun l : ℚ => n + 1 / l) Filter.atTop (nhds (n + 0)) :=
    tendsto_const_nhds.add hinv
  have hne : n + 0 ≠ 0 := by simpa using ne_of_gt h
  have hdiv := hnum.div hden hne
  simpa [findPeaksScaling] using hdiv

/-- Witness for C3 at conv = 2, norm = 1: the scaling tends to 2. -/
theorem C3_scaling_ridge_limit_witness :
    (0 : ℚ) < 1
    ∧ Filter.Tendsto (fun l => findPeaksScaling l 2 1) Filter.atTop (nhds (2 / 1)) :=
  ⟨by norm_num, C3_scaling_ridge_limit 2 1 (by norm_num)⟩

/-- Arithmetic core of the double-buffer shape assertion: provided the
batch length strictly exceeds the buffer, every batch start (of the
form start + k * batch_len, before the region end) yields a padded
length of exactly 2 * buffer + (s_end - s_start). -/
theorem paddedLen_eq (startSample endSample sStart batchLen buffer : ℤ)
    (hbuf : 0 ≤ buffer) (hbatch : buffer < batchLen)
    (hcase : sStart = startSample ∨ startSample + batchLen ≤ sStart)
    (hlt : sStart < endSample) :
    padLeftD startSample sStart buffer
        + (loadEndD endSample sStart batchLen buffer
            - loadStartD startSample sStart buffer)
        + padRightD endSample sStart batchLen buffer
      = 2 * buffer + (sEndD endSample sStart batchLen - sStart) := by
  rw [padLeftD, padRightD, loadStartD, loadEndD, sEndD]
  split_ifs with h1 h2 h3 <;> omega

/-- C10: implicit precondition of the double-buffer load. For every batch
job of subtraction (s_start = start_sample + k * batch_len_samples with
s_start < end_sample), provided batch_len_samples is strictly greater
than 2 * spike_length_samples, the loaded-and-padded residual has
exactly 2 * buffer + (s_end - s_start) rows with buffer =
2 * spike_length_samples, so the internal shape assertion holds. -/
theorem C10_double_buffer_shape {α : Type} [Inhabited α] (rec : ℤ → α)
    (startSample endSample sStart batchLen spikeLen : ℤ) (k : ℕ)
    (hspike : 0 < spikeLen) (hbatch : 2 * spikeLen < batchLen)
    (hk : sStart = startSample + (k : ℤ) * batchLen) (hlt : sStart < endSample) :
    ((loadPadded rec startSample endSample sStart batchLen (2 * spikeLen)).length : ℤ)
      = 2 * (2 * spikeLen) + (sEndD endSample sStart batchLen - sStart) := by
  have hcase : sStart = startSample ∨ startSample + batchLen ≤ sStart := by
    rcases Nat.eq_zero_or_pos k with hk0 | hkpos
    · left
      rw [hk, hk0]
      simp
    · right
      have h1 : (1 : ℤ) ≤ (k : ℤ) := by exact_mod_cast hkpos
      have h2 : batchLen ≤ (k : ℤ) * batchLen := by
        nlinarith
      omega
  have harith := paddedLen_eq startSample endSample sStart batchLen (2 * spikeLen)
    (by omega) (by omega) hcase hlt
  have hlen : (loadPadded rec startSample endSample sStart batchLen (2 * spikeLen)).length
      = (padLeftD startSample sStart (2 * spikeLen)).toNat
        + (loadEndD endSample sStart batchLen (2 * spikeLen)
            - loadStartD startSample sStart (2 * spikeLen)).toNat
        + (padRightD endSample sStart batchLen (2 * spikeLen)).toNat := by
    rw [loadPadded, padEdgeList, List.length_append, List.length_append,
      List.length_replicate, List.length_replicate]
    simp [loadedRows]
  rw [hlen]
  have hls : loadStartD startSample sStart (2 * spikeLen)
      ≤ loadEndD endSample sStart batchLen (2 * spikeLen) := by
    rw [loadStartD, loadEndD, sEndD]
    rcases hcase with h | h <;> omega
  have hpl : 0 ≤ padLeftD startSample sStart (2 * spikeLen) := by
    rw [padLeftD]
    split_ifs <;> omega
  have hpr : 0 ≤ padRightD endSample sStart batchLen (2 * spikeLen) := by
    rw [padRightD]
    split_ifs with h
    · rw [loadEndD, sEndD] at h
      rw [sEndD]
      omega
    · omega
  omega

/-- Witness for C10: start 0, end 1000, batch length 300, spike length
121 (buffer 242), batch 1 starting at sample 300: the padded length is
2 * 242 + 300 = 784. -/
theorem C10_double_buffer_shape_witness :
    (0 : ℤ) < 121 ∧ 2 * 121 < (300 : ℤ) ∧ (300 : ℤ) = 0 + (1 : ℕ) * 300
    ∧ (300 : ℤ) < 1000
    ∧ ((loadPadded (fun t => t) 0 1000 300 300 (2 * 121)).length : ℤ)
        = 2 * (2 * 121) + (sEndD 1000 300 300 - 300) :=
  ⟨by norm_num, by norm_num, by norm_num, by norm_num,
    C10_double_buffer_shape (fun t => t) 0 1000 300 300 121 1
      (by norm_num) (by norm_num) (by norm_num) (by norm_num)⟩

/-- C7 (code bug): with start_sample = 0, end_sample = 1000,
spike_length_samples = 121 (buffer = 2 * 121 = 242) and
batch_len_samples = 242, batch 1 starts at s_start = 242 and requests
the load range [s_start - buffer, s_end + buffer] = [0, 726], which
lies entirely inside the recording region [0, 1000] (it touches the
region start exactly, extending beyond neither end); the claim then
demands no padding, but the condition load_start == start_sample is
true, so the code pads a full buffer of 242 replicated rows on the
left, and the resulting row count 968 contradicts the function's own
shape assertion 2 * buffer + (s_end - s_start) = 726. -/
theorem C7_exact_touch_pads_inside_recording :
    ((242 : ℤ) - 242 = 0 ∧ (0 : ℤ) ≤ 0 ∧ sEndD 1000 242 242 + 242 ≤ 1000)
    ∧ padLeftD 0 242 242 = 242
    ∧ padLeftD 0 242 242 ≠ 0
    ∧ padLeftD 0 242 242
        + (loadEndD 1000 242 242 242 - loadStartD 0 242 242)
        + padRightD 1000 242 242 242 = 968
    ∧ 2 * 242 + (sEndD 1000 242 242 - 242) = (726 : ℤ)
    ∧ (968 : ℤ) ≠ 726 := by
  refine ⟨⟨by norm_num, by norm_num, ?_⟩, ?_, ?_, ?_, ?_, by norm_num⟩ <;>
    norm_num [sEndD, loadEndD, loadStartD, padLeftD, padRightD]

/-! ## Sorted-list machinery for np.searchsorted and resume filtering -/

/-- On a key-nondecreasing list, filtering the elements with key at least
w is the same as dropping the (prefix of) elements with key below w. -/
theorem filter_ge_eq_drop_countP {α β : Type} [LinearOrder β] (key : α → β)
    (w : β) (l : List α) (hmono : l.Pairwise (fun x y => key x ≤ key y)) :
    l.filter (fun x => decide (w ≤ key x))
      = l.drop (l.countP (fun x => decide (key x < w))) := by
  induction l with
  | nil => simp
  | cons x t ih =>
      rcases List.pairwise_cons.mp hmono with ⟨hx, ht⟩
      by_cases h : key x < w
      · have e1 : (decide (w ≤ key x)) = false := by simp [not_le.mpr h]
        have e2 : (decide (key x < w)) = true := by simp [h]
        simp only [List.filter_cons, List.countP_cons, e1, e2]
        simp [ih ht]
      · have hw : w ≤ key x := not_lt.mp h
        have e1 : (decide (w ≤ key x)) = true := by simp [hw]
        have e2 : (decide (key x < w)) = false := by simp [h]
        have hcount : t.countP (fun y => decide (key y < w)) = 0 := by
          rw [List.countP_eq_zero]
          intro y hy
          simp only [decide_eq_true_eq]
          exact not_lt.mpr (le_trans hw (hx y hy))
        have hself : t.filter (fun y => decide (w ≤ key y)) = t := by
          rw [List.filter_eq_self]
          intro y hy
          simp only [decide_eq_true_eq]
          exact le_trans hw (hx y hy)
        simp [List.filter_cons, List.countP_cons, e1, e2, hcount, hself]

/-- On a key-nondecreasing list, filtering the elements with key at most
h is the same as taking the prefix of elements with key at most h. -/
theorem filter_le_eq_take_countP {α β : Type} [LinearOrder β] (key : α → β)
    (h : β) (l : List α) (hmono : l.Pairwise (fun x y => key x ≤ key y)) :
    l.filter (fun x => decide (key x ≤ h))
      = l.take (l.countP (fun x => decide (key x ≤ h))) := by
  induction l with
  | nil => simp
  | cons x t ih =>
      rcases List.pairwise_cons.mp hmono with ⟨hx, ht⟩
      by_cases hle : key x ≤ h
      · have e1 : (decide (key x ≤ h)) = true := by simp [hle]
        simp only [List.filter_cons, List.countP_cons, e1]
        simp [ih ht]
      · have e1 : (decide (key x ≤ h)) = false := by simp [hle]
        have hcount : t.countP (fun y => decide (key y ≤ h)) = 0 := by
          rw [List.countP_eq_zero]
          intro y hy
          simp only [decide_eq_true_eq]
          intro hc
          exact hle (le_trans (hx y hy) hc)
        have hnil : t.filter (fun y => decide (key y ≤ h)) = [] := by
          rw [List.filter_eq_nil_iff]
          intro y hy
          simp only [decide_eq_true_eq]
          intro hc
          exact hle (le_trans (hx y hy) hc)
        simp [List.filter_cons, List.countP_cons, e1, hcount, hnil]

/-- Job starts are nondecreasing along the job list. -/
theorem subtractionJobs_mono (startSample endSample batchLen : ℕ) :
    (subtractionJobs startSample endSample batchLen).Pairwise
      (fun a b => a.2 ≤ b.2) := by
  rw [subtractionJobs, List.pairwise_map]
  apply List.Pairwise.imp ?_ (List.pairwise_lt_range _)
  intro a b hab
  exact Nat.add_le_add_left (Nat.mul_le_mul_right batchLen (le_of_lt hab)) _

/-- C9: on re-invocation with an existing, non-overwritten store, the
watermark is the last stored spike time (0 when the store is empty or
fresh), and exactly the batches whose start sample precedes the
watermark are skipped: a job survives iff its start does not precede
the watermark, and the surviving jobs are the job list with its initial
segment of stale jobs dropped. -/
theorem C9_resume_watermark (h5Exists overwrite : Bool) (storedTimes : List ℕ)
    (startSample endSample batchLen : ℕ) :
    (storedTimes ≠ [] →
      lastSampleOf true false storedTimes = storedTimes.getLastD 0)
    ∧ lastSampleOf h5Exists overwrite [] = 0
    ∧ (∀ j ∈ subtractionJobs startSample endSample batchLen,
        (j ∈ resumeJobs startSample endSample batchLen
            (lastSampleOf h5Exists overwrite storedTimes)
          ↔ ¬(j.2 < lastSampleOf h5Exists overwrite storedTimes)))
    ∧ resumeJobs startSample endSample batchLen
          (lastSampleOf h5Exists overwrite storedTimes)
        = (subtractionJobs startSample endSample batchLen).drop
            ((subtractionJobs startSample endSample batchLen).countP
              (fun j => decide (j.2 < lastSampleOf h5Exists overwrite storedTimes))) := by
  refine ⟨?_, ?_, ?_, ?_⟩
  · intro hne
    have : storedTimes.isEmpty = false := by
      simpa [List.isEmpty_iff] using hne
    simp [lastSampleOf, this]
  · simp [lastSampleOf]
  · intro j hj
    simp [resumeJobs, List.mem_filter, hj, not_lt]
  · exact filter_ge_eq_drop_countP (fun j : ℕ × ℕ => j.2) _ _
      (subtractionJobs_mono startSample endSample batchLen)

/-- Witness for C9: store holds spike times [5, 12], region [0, 30) in
batches of 10: the watermark is 12, jobs 0 (start 0) and 1 (start 10)
are skipped, job 2 (start 20) is processed. -/
theorem C9_resume_watermark_witness :
    lastSampleOf true false [5, 12] = 12
    ∧ resumeJobs 0 30 10 (lastSampleOf true false [5, 12]) = [(2, 20)] := by
  have h := C9_resume_watermark true false [5, 12] 0 30 10
  have h1 : lastSampleOf true false [5, 12] = 12 := by
    rw [h.1 (by simp)]
    rfl
  refine ⟨h1, ?_⟩
  rw [h.2.2.2, h1]
  decide

/-- The searchsorted slice [minix:maxix] of a key-sorted list is exactly
its in-range filter. -/
theorem drop_take_eq_filter_range {α β : Type} [LinearOrder β] (key : α → β)
    (lo hi : β) (l : List α)
    (hmono : l.Pairwise (fun x y => key x ≤ key y)) :
    ((l.drop (l.countP (fun x => decide (key x < lo)))).take
        (l.countP (fun x => decide (key x ≤ hi))
          - l.countP (fun x => decide (key x < lo))))
      = l.filter (fun x => decide (lo ≤ key x) && decide (key x ≤ hi)) := by
  induction l with
  | nil => simp
  | cons x t ih =>
      rcases List.pairwise_cons.mp hmono with ⟨hx, ht⟩
      by_cases hlo : key x < lo
      · have e1 : (decide (key x < lo)) = true := by simp [hlo]
        have e2 : (decide (lo ≤ key x)) = false := by simp [not_le.mpr hlo]
        by_cases hhi : key x ≤ hi
        · have e3 : (decide (key x ≤ hi)) = true := by simp [hhi]
          simp only [List.countP_cons, e1, e3, if_true, List.filter_cons, e2,
            Bool.false_and]
          simp only [List.drop_succ_cons]
          have harith :
              t.countP (fun s => decide (key s ≤ hi)) + 1
                - (t.countP (fun s => decide (key s < lo)) + 1)
              = t.countP (fun s => decide (key s ≤ hi))
                - t.countP (fun s => decide (key s < lo)) := by omega
          rw [harith, ih ht]
          simp
        · have hgt : hi < key x := not_le.mp hhi
          have hn : (x :: t).countP (fun s => decide (key s ≤ hi)) = 0 := by
            rw [List.countP_eq_zero]
            intro y hy
            simp only [decide_eq_true_eq]
            rcases List.mem_cons.mp hy with rfl | hyt
            · exact not_le.mpr hgt
            · exact not_le.mpr (lt_of_lt_of_le hgt (hx y hyt))
          have hnil : (x :: t).filter
              (fun s => decide (lo ≤ key s) && decide (key s ≤ hi)) = [] := by
            rw [List.filter_eq_nil_iff]
            intro y hy
            simp only [Bool.and_eq_true, decide_eq_true_eq, not_and]
            intro _
            rcases List.mem_cons.mp hy with rfl | hyt
            · exact not_le.mpr hgt
            · exact not_le.mpr (lt_of_lt_of_le hgt (hx y hyt))
          rw [hn, hnil]
          simp
      · have hge : lo ≤ key x := not_lt.mp hlo
        have e1 : (decide (key x < lo)) = false := by simp [hlo]
        have hm : (x :: t).countP (fun s => decide (key s < lo)) = 0 := by
          rw [List.countP_eq_zero]
          intro y hy
          simp only [decide_eq_true_eq]
          rcases List.mem_cons.mp hy with rfl | hyt
          · exact hlo
          · exact not_lt.mpr (le_trans hge (hx y hyt))
        by_cases hhi : key x ≤ hi
        · have e3 : (decide (key x ≤ hi)) = true := by simp [hhi]
          have e2 : (decide (lo ≤ key x)) = true := by simp [hge]
          rw [hm]
          simp only [List.countP_cons, e3, if_true, List.drop_zero,
            Nat.sub_zero, List.filter_cons, e2, e3, Bool.and_self]
          have htake : (x :: t).take (t.countP (fun s => decide (key s ≤ hi)) + 1)
              = x :: t.take (t.countP (fun s => decide (key s ≤ hi))) := rfl
          rw [htake]
          have hcongr : t.filter (fun s => decide (lo ≤ key s) && decide (key s ≤ hi))
              = t.filter (fun s => decide (key s ≤ hi)) := by
            apply List.filter_congr
            intro y hy
            have : lo ≤ key y := le_trans hge (hx y hy)
            simp [this]
          rw [hcongr, filter_le_eq_take_countP key hi t ht]
        · have hgt : hi < key x := not_le.mp hhi
          have hn : (x :: t).countP (fun s => decide (key s ≤ hi)) = 0 := by
            rw [List.countP_eq_zero]
            intro y hy
            simp only [decide_eq_true_eq]
            rcases List.mem_cons.mp hy with rfl | hyt
            · exact not_le.mpr hgt
            · exact not_le.mpr (lt_of_lt_of_le hgt (hx y hyt))
          have hnil : (x :: t).filter
              (fun s => decide (lo ≤ key s) && decide (key s ≤ hi)) = [] := by
            rw [List.filter_eq_nil_iff]
            intro y hy
            simp only [Bool.and_eq_true, decide_eq_true_eq, not_and]
            intro _
            rcases List.mem_cons.mp hy with rfl | hyt
            · exact not_le.mpr hgt
            · exact not_le.mpr (lt_of_lt_of_le hgt (hx y hyt))
          rw [hn, hm, hnil]
          simp

/-- C5 (amended): the finalized spikes of a subtraction batch are exactly
the detections concatenated over all thresholds, sorted by
nondecreasing time, keeping precisely the spikes whose batch-relative
time t satisfies spike_time_min <= t <= spike_time_max (both bounds
inclusive), where spike_time_min is trough_offset for a batch at the
true region start and 0 otherwise, and spike_time_max is
(s_end - s_start) minus (spike_length - trough_offset) when
load_end = end_sample and (s_end - s_start) otherwise. (The frozen
claim said spikes within spike_length_samples of a true recording
boundary are dropped; the code trims only trough_offset samples at the
start and spike_length - trough_offset at the end, and keeps the
boundary values themselves.) -/
theorem C5_finalize_sorted_trim
    (startSample endSample sStart batchLen spikeLen trough : ℤ)
    (detections : List (List (ℤ × ℕ))) :
    subtractionFinalize startSample endSample sStart batchLen spikeLen trough
        detections
      = (sortByTime (detections.flatMap id)).filter
          (fun s => decide (spikeTimeMin startSample sStart trough ≤ s.1)
            && decide (s.1 ≤ spikeTimeMax endSample sStart batchLen spikeLen trough))
    ∧ (subtractionFinalize startSample endSample sStart batchLen spikeLen trough
        detections).Perm
        ((detections.flatMap id).filter
          (fun s => decide (spikeTimeMin startSample sStart trough ≤ s.1)
            && decide (s.1 ≤ spikeTimeMax endSample sStart batchLen spikeLen trough)))
    ∧ (subtractionFinalize startSample endSample sStart batchLen spikeLen trough
        detections).Pairwise (fun a b => a.1 ≤ b.1) := by
  haveI hTot : IsTotal (ℤ × ℕ) (fun a b => a.1 ≤ b.1) := ⟨fun a b => le_total a.1 b.1⟩
  haveI hTrans : IsTrans (ℤ × ℕ) (fun a b => a.1 ≤ b.1) :=
    ⟨fun _ _ _ hab hbc => le_trans hab hbc⟩
  have hsorted : (sortByTime (detections.flatMap id)).Pairwise
      (fun a b => a.1 ≤ b.1) := by
    have h := List.sorted_insertionSort (fun a b : ℤ × ℕ => a.1 ≤ b.1)
      (detections.flatMap id)
    rw [sortByTime]
    exact h
  have h1 : subtractionFinalize startSample endSample sStart batchLen spikeLen trough
        detections
      = (sortByTime (detections.flatMap id)).filter
          (fun s => decide (spikeTimeMin startSample sStart trough ≤ s.1)
            && decide (s.1 ≤ spikeTimeMax endSample sStart batchLen spikeLen trough)) :=
    drop_take_eq_filter_range (fun s : ℤ × ℕ => s.1)
      (spikeTimeMin startSample sStart trough)
      (spikeTimeMax endSample sStart batchLen spikeLen trough)
      (sortByTime (detections.flatMap id)) hsorted
  refine ⟨h1, ?_, ?_⟩
  · rw [h1]
    exact (List.perm_insertionSort (fun a b => a.1 ≤ b.1)
      (detections.flatMap id)).filter _
  · rw [h1]
    exact hsorted.filter _

/-- Counterexample to C5 as frozen: region [0, 100), first batch
(s_start = start_sample = 0) of length 10, spike_length = 5,
trough_offset = 2, detections at relative times 1, 3 and 10. The spike
at time 3 lies within spike_length = 5 samples of the true recording
start, so the frozen claim says it is dropped, but the code keeps every
spike with time at least trough_offset = 2 and it is reported. -/
theorem C5_finalize_counterexample :
    subtractionFinalize 0 100 0 10 5 2 [[(1, 0), (3, 1), (10, 2)]]
        = [(3, 1), (10, 2)]
    ∧ ((3 : ℤ), (1 : ℕ)) ∈
        subtractionFinalize 0 100 0 10 5 2 [[(1, 0), (3, 1), (10, 2)]]
    ∧ (3 : ℤ) < 5 := by
  refine ⟨?_, ?_, by norm_num⟩ <;> decide

/-- Two argrelmax indices of order k cannot lie within k of each other:
each would have to be strictly greater than the other. -/
theorem argRelMax_gap {β : Type} [LinearOrder β] (order : ℕ)
    (xs : List (WithBot β)) (i j : ℕ) (hi : i ∈ argRelMax order xs)
    (hj : j ∈ argRelMax order xs) (hij : i < j) : order < j - i := by
  by_contra hle
  push_neg at hle
  have hiMem := List.mem_filter.mp hi
  have hjMem := List.mem_filter.mp hj
  have hiLt : i < xs.length := List.mem_range.mp hiMem.1
  have hjLt : j < xs.length := List.mem_range.mp hjMem.1
  have hs1 : 1 ≤ j - i := by omega
  have hsmem : j - i ∈ List.range' 1 order := by
    rw [List.mem_range'_1]
    omega
  have hip := (List.all_eq_true.mp hiMem.2) (j - i) hsmem
  have hjp := (List.all_eq_true.mp hjMem.2) (j - i) hsmem
  rw [Bool.and_eq_true, decide_eq_true_eq, decide_eq_true_eq] at hip hjp
  have hmin : min (i + (j - i)) (xs.length - 1) = j := by omega
  have h1 : xs.getD j ⊥ < xs.getD i ⊥ := by
    have := hip.1
    rwa [hmin] at this
  have h2 : xs.getD (j - (j - i)) ⊥ < xs.getD j ⊥ := hjp.2
  have hji : j - (j - i) = i := by omega
  rw [hji] at h2
  exact absurd h1 (lt_asymm h2)

/-- Candidate times of one find_peaks pass are pairwise at least n_time
apart: the order-(n_time - 1) local-maxima suppression on the per-time
maximum enforces the refractory gap across the whole unit pool. -/
theorem candTimes_pairwise_gap {β : Type} [LinearOrder β] (nTime : ℕ)
    (threshold : β) (obj : List (List (WithBot β))) (hT : 2 ≤ nTime) :
    (candTimes nTime threshold obj).Pairwise (fun a b => a + nTime ≤ b) := by
  have h0 : (argRelMax (nTime - 1) (slicedMax nTime obj)).Pairwise (· < ·) :=
    (List.pairwise_lt_range _).filter _
  have h1 : (argRelMax (nTime - 1) (slicedMax nTime obj)).Pairwise
      (fun a b => a + nTime ≤ b) := by
    refine List.Pairwise.imp_of_mem ?_ h0
    intro a b ha hb hab
    have hgap := argRelMax_gap (nTime - 1) (slicedMax nTime obj) a b ha hb hab
    omega
  have h2 : ((argRelMax (nTime - 1) (slicedMax nTime obj)).map
      (fun i => i + (nTime - 1))).Pairwise (fun a b => a + nTime ≤ b) := by
    rw [List.pairwise_map]
    exact h1.imp (fun h => by omega)
  exact h2.filter _

/-- Every (in range or out of range) lookup in peak_time_jitter is 0 or 1. -/
theorem peakTimeJitter_getD_le_one (factor k : ℕ) :
    (peakTimeJitter factor).getD k 0 ≤ 1 := by
  by_cases hk : k < (peakTimeJitter factor).length
  · rw [List.getD_eq_getElem _ _ hk]
    have hmem := List.getElem_mem hk
    have hall : ∀ x ∈ peakTimeJitter factor, x ≤ 1 := by
      intro x hx
      rw [peakTimeJitter] at hx
      rcases List.mem_cons.mp hx with rfl | h
      · omega
      · rcases List.mem_append.mp h with h2 | h2 <;>
          rcases List.eq_of_mem_replicate h2 with ⟨h3, rfl⟩ <;> omega
    exact hall _ hmem
  · rw [List.getD_eq_default _ _ (by omega)]
    omega

/-- Length of the built spike train. -/
theorem fpTrainAux_length (f : ℕ → ℕ → ℤ × ℕ) (i0 : ℕ) (ts : List ℕ) :
    (fpTrainAux f i0 ts).length = ts.length := by
  induction ts generalizing i0 with
  | nil => rfl
  | cons t ts ih => simp [fpTrainAux, ih]

/-- Entry k of the built spike train. -/
theorem fpTrainAux_getD (f : ℕ → ℕ → ℤ × ℕ) (ts : List ℕ) (i0 k : ℕ)
    (hk : k < ts.length) :
    (fpTrainAux f i0 ts).getD k (0, 0) = f (i0 + k) (ts.getD k 0) := by
  induction ts generalizing i0 k with
  | nil => simp at hk
  | cons t ts ih =>
      cases k with
      | zero => simp [fpTrainAux]
      | succ m =>
          have hm : m < ts.length := by simpa using hk
          have h1 : (fpTrainAux f i0 (t :: ts)).getD (m + 1) (0, 0)
              = (fpTrainAux f (i0 + 1) ts).getD m (0, 0) := rfl
          rw [h1, ih (i0 + 1) m hm]
          have : i0 + 1 + m = i0 + (m + 1) := by omega
          rw [this]
          rfl

/-- The reported time of a train entry is the candidate time plus a
jitter of 0 or 1, shifted to voltage space by n_time - 1. -/
theorem fpEntry_time {β : Type} [LinearOrder β] (obj : List (List (WithBot β)))
    (nTime factor : ℕ) (shiftSel : ℕ → ℕ) (i t : ℕ) :
    ∃ jit : ℕ, jit ≤ 1
      ∧ (fpEntry obj nTime factor shiftSel i t).1
          = (t : ℤ) + (jit : ℤ) - ((nTime : ℤ) - 1) := by
  rw [fpEntry]
  split_ifs with h
  · exact ⟨0, by omega, by push_cast; ring⟩
  · refine ⟨(peakTimeJitter factor).getD (shiftSel i) 0,
      peakTimeJitter_getD_le_one factor (shiftSel i), ?_⟩
    push_cast
    ring

/-- C6: within a single find_peaks pass, no two returned spikes lie
strictly within T - 1 samples of each other, where T = n_time is the
template length: candidate times (positions i < j of the pass) are at
least T apart thanks to the order-(T - 1) local-maxima suppression of
the per-time unit-pool maximum, and after sub-sample time-shift
refinement (which moves each accepted time by at most one sample) the
reported voltage-space times are still at least T - 1 apart. -/
theorem C6_refractory_separation {β : Type} [LinearOrder β] (nTime : ℕ)
    (threshold : β) (factor : ℕ) (shiftSel : ℕ → ℕ)
    (obj : List (List (WithBot β))) (hT : 2 ≤ nTime) (i j : ℕ) (hij : i < j)
    (hj : j < (candTimes nTime threshold obj).length) :
    (candTimes nTime threshold obj).getD i 0 + nTime
        ≤ (candTimes nTime threshold obj).getD j 0
    ∧ ((fpTrain nTime threshold factor shiftSel obj).getD i (0, 0)).1
          + ((nTime : ℤ) - 1)
        ≤ ((fpTrain nTime threshold factor shiftSel obj).getD j (0, 0)).1 := by
  have hi : i < (candTimes nTime threshold obj).length := lt_trans hij hj
  have hpair := candTimes_pairwise_gap nTime threshold obj hT
  have hgap : (candTimes nTime threshold obj).getD i 0 + nTime
      ≤ (candTimes nTime threshold obj).getD j 0 := by
    rw [List.getD_eq_getElem _ _ hi, List.getD_eq_getElem _ _ hj]
    exact List.pairwise_iff_getElem.mp hpair i j hi hj hij
  refine ⟨hgap, ?_⟩
  rw [fpTrain, fpTrainAux_getD _ _ _ _ hi, fpTrainAux_getD _ _ _ _ hj]
  obtain ⟨ji, hji, hti⟩ := fpEntry_time obj nTime factor shiftSel (0 + i)
    ((candTimes nTime threshold obj).getD i 0)
  obtain ⟨jj, hjj, htj⟩ := fpEntry_time obj nTime factor shiftSel (0 + j)
    ((candTimes nTime threshold obj).getD j 0)
  rw [hti, htj]
  omega

/-- Witness for C6: with template length 2 and threshold 1, the pass on
c6obj returns candidates at times 2 and 5 (4 samples apart, at least
n_time = 2) whose reported voltage-space times 1 and 4 are at least
n_time - 1 apart. -/
theorem C6_refractory_separation_witness :
    (2 ≤ 2 ∧ 0 < 1 ∧ 1 < (candTimes 2 (1 : ℤ) c6obj).length)
    ∧ ((candTimes 2 (1 : ℤ) c6obj).getD 0 0 + 2
          ≤ (candTimes 2 (1 : ℤ) c6obj).getD 1 0
      ∧ ((fpTrain 2 (1 : ℤ) 1 (fun _ => 0) c6obj).getD 0 (0, 0)).1 + ((2 : ℤ) - 1)
          ≤ ((fpTrain 2 (1 : ℤ) 1 (fun _ => 0) c6obj).getD 1 (0, 0)).1) :=
  ⟨⟨by omega, by omega, by decide⟩,
    C6_refractory_separation 2 (1 : ℤ) 1 (fun _ => 0) c6obj (by omega) 0 1
      (by omega) (by decide)⟩

/-- getD of a set cell, in range. -/
theorem getD_set_self {γ : Type} (l : List γ) (i : ℕ) (a d : γ)
    (h : i < l.length) : (l.set i a).getD i d = a := by
  rw [List.getD_eq_getElem?_getD, List.getElem?_set_eq_of_lt _ h]
  rfl

/-- Setting a cell to -inf yields -inf there, and preserves -inf
anywhere. -/
theorem set_bot_getD {β : Type} (row : List (WithBot β)) (t c : ℕ)
    (h : row.getD c ⊥ = ⊥ ∨ t = c) : (row.set t ⊥).getD c ⊥ = ⊥ := by
  rcases h with h | rfl
  · by_cases htc : t = c
    · subst htc
      by_cases hlt : t < row.length
      · rw [List.getD_eq_getElem?_getD, List.getElem?_set_eq_of_lt _ hlt]
        rfl
      · rw [List.set_eq_of_length_le (by omega)]
        exact h
    · rw [List.getD_eq_getElem?_getD, List.getElem?_set_ne htc,
        ← List.getD_eq_getElem?_getD]
      exact h
  · by_cases hlt : t < row.length
    · rw [List.getD_eq_getElem?_getD, List.getElem?_set_eq_of_lt _ hlt]
      rfl
    · rw [List.set_eq_of_length_le (by omega),
        List.getD_eq_default _ _ (by omega)]

/-- setBotRow forces -inf at every targeted cell and preserves -inf at
every other cell. -/
theorem setBotRow_getD_bot {β : Type} (ts : List ℕ) (row : List (WithBot β))
    (c : ℕ) (h : row.getD c ⊥ = ⊥ ∨ c ∈ ts) :
    (setBotRow row ts).getD c ⊥ = ⊥ := by
  induction ts generalizing row with
  | nil =>
      rcases h with h | h
      · exact h
      · simp at h
  | cons t ts ih =>
      have hstep : setBotRow row (t :: ts) = setBotRow (row.set t ⊥) ts := rfl
      rw [hstep]
      rcases h with h | h
      · exact ih (row.set t ⊥) (Or.inl (set_bot_getD row t c (Or.inl h)))
      · rcases List.mem_cons.mp h with rfl | hmem
        · exact ih (row.set c ⊥) (Or.inl (set_bot_getD row c c (Or.inr rfl)))
        · exact ih (row.set t ⊥) (Or.inr hmem)

/-- modifyRow leaves other rows unchanged. -/
theorem modifyRow_getD_other {β : Type} (X : List (List (WithBot β)))
    (u v : ℕ) (f : List (WithBot β) → List (WithBot β)) (h : u ≠ v) :
    (modifyRow X u f).getD v [] = X.getD v [] := by
  rw [modifyRow, List.getD_eq_getElem?_getD, List.getElem?_set_ne h,
    ← List.getD_eq_getElem?_getD]

/-- One turn-off fold step preserves an -inf cell anywhere in the
objective (every write it performs writes -inf). -/
theorem turnOffStep_preserve {β : Type} [LinearOrder β]
    (obj : List (List (WithBot β))) (nTime factor : ℕ)
    (acc : List (List (WithBot β))) (t u c : ℕ)
    (h : (acc.getD u []).getD c ⊥ = ⊥) :
    (((if factor ≠ 1 ∧ invalidCand obj factor (candUnit obj t) t = true then
        modifyRow acc (candUnit obj t)
          (fun row => setBotRow row
            ((List.range nTime).map (fun k => t - (nTime - 1) + k)))
      else acc)).getD u []).getD c ⊥ = ⊥ := by
  split_ifs with hc
  · by_cases huv : candUnit obj t = u
    · subst huv
      by_cases hlt : candUnit obj t < acc.length
      · rw [modifyRow, getD_set_self _ _ _ _ hlt]
        exact setBotRow_getD_bot _ _ _ (Or.inl h)
      · rw [modifyRow, List.set_eq_of_length_le (by omega)]
        exact h
    · rw [modifyRow_getD_other _ _ _ _ huv]
      exact h
  · exact h

/-- Folding further turn-off steps preserves an -inf cell. -/
theorem turnOffFold_preserve {β : Type} [LinearOrder β]
    (obj : List (List (WithBot β))) (nTime factor : ℕ) (cs : List ℕ)
    (acc : List (List (WithBot β))) (u c : ℕ)
    (h : (acc.getD u []).getD c ⊥ = ⊥) :
    ((cs.foldl (fun acc t =>
        if factor ≠ 1 ∧ invalidCand obj factor (candUnit obj t) t = true then
          modifyRow acc (candUnit obj t)
            (fun row => setBotRow row
              ((List.range nTime).map (fun k => t - (nTime - 1) + k)))
        else acc) acc).getD u []).getD c ⊥ = ⊥ := by
  induction cs generalizing acc with
  | nil => exact h
  | cons t ts ih =>
      exact ih _ (turnOffStep_preserve obj nTime factor acc t u c h)

/-- After high_res_peak processes an invalid candidate t (up_factor not
1), the objective holds -inf on the refractory window
[t - (n_time - 1), t] of the candidate's unit row. -/
theorem turnOffObj_cell_bot {β : Type} [LinearOrder β] (nTime factor : ℕ)
    (threshold : β) (obj : List (List (WithBot β))) (t : ℕ)
    (hfac : factor ≠ 1) (ht : t ∈ candTimes nTime threshold obj)
    (hinv : invalidCand obj factor (candUnit obj t) t = true)
    (k : ℕ) (hk : k < nTime) :
    ((turnOffObj nTime factor threshold obj).getD (candUnit obj t) []).getD
        (t - (nTime - 1) + k) ⊥ = ⊥ := by
  obtain ⟨l1, l2, hsplit⟩ := List.append_of_mem ht
  rw [turnOffObj, hsplit, List.foldl_append, List.foldl_cons]
  apply turnOffFold_preserve
  rw [if_pos ⟨hfac, hinv⟩]
  by_cases hlt : candUnit obj t <
      (List.foldl (fun acc t =>
        if factor ≠ 1 ∧ invalidCand obj factor (candUnit obj t) t = true then
          modifyRow acc (candUnit obj t)
            (fun row => setBotRow row
              ((List.range nTime).map (fun k => t - (nTime - 1) + k)))
        else acc) obj l1).length
  · rw [modifyRow, getD_set_self _ _ _ _ hlt]
    apply setBotRow_getD_bot
    right
    rw [List.mem_map]
    exact ⟨k, List.mem_range.mpr hk, rfl⟩
  · have hge : (List.foldl (fun acc t =>
        if factor ≠ 1 ∧ invalidCand obj factor (candUnit obj t) t = true then
          modifyRow acc (candUnit obj t)
            (fun row => setBotRow row
              ((List.range nTime).map (fun k => t - (nTime - 1) + k)))
        else acc) obj l1).length ≤ candUnit obj t := by omega
    rw [modifyRow, List.set_eq_of_length_le hge, List.getD_eq_default _ _ hge]
    simp

/-- An invalid candidate still appears in the returned spike train, with
the fall-back id unit * up_factor and the unshifted voltage-space
time. -/
theorem fpTrain_invalid_mem {β : Type} [LinearOrder β] (nTime : ℕ)
    (threshold : β) (factor : ℕ) (shiftSel : ℕ → ℕ)
    (obj : List (List (WithBot β))) (t : ℕ)
    (ht : t ∈ candTimes nTime threshold obj)
    (hinv : invalidCand obj factor (candUnit obj t) t = true) :
    ((t : ℤ) - ((nTime : ℤ) - 1), candUnit obj t * factor)
      ∈ fpTrain nTime threshold factor shiftSel obj := by
  obtain ⟨kk, hkk, hkt⟩ := List.mem_iff_getElem.mp ht
  have hlen : kk < (fpTrain nTime threshold factor shiftSel obj).length := by
    rw [fpTrain, fpTrainAux_length]
    exact hkk
  have hval : (fpTrain nTime threshold factor shiftSel obj).getD kk (0, 0)
      = fpEntry obj nTime factor shiftSel (0 + kk) t := by
    rw [fpTrain, fpTrainAux_getD _ _ _ _ hkk]
    rw [List.getD_eq_getElem _ _ hkk, hkt]
  have hentry : fpEntry obj nTime factor shiftSel (0 + kk) t
      = ((t : ℤ) - ((nTime : ℤ) - 1), candUnit obj t * factor) := by
    rw [fpEntry, if_pos (Or.inr hinv)]
  have hmem0 : (fpTrain nTime threshold factor shiftSel obj).getD kk (0, 0)
      ∈ fpTrain nTime threshold factor shiftSel obj := by
    rw [List.getD_eq_getElem _ _ hlen]
    exact List.getElem_mem hlen
  rw [hval, hentry] at hmem0
  exact hmem0

/-- C4 (amended): in a matching-pursuit pass with up_factor greater
than 1, a candidate spike whose sub-sample upsampling window around its
peak touches an already-excluded (-inf) entry at the window edges is
excluded from sub-sample refinement, and the objective of its unit is
forced to -inf over the refractory window [t - (n_time - 1), t] so the
candidate is not retried in later passes; however, contrary to the
frozen claim, the candidate is NOT discarded from the pass: it still
appears in the spike train returned by find_peaks, with the fall-back
id unit * up_factor and its unrefined time. -/
theorem C4_invalid_candidate_fate {β : Type} [LinearOrder β] (nTime : ℕ)
    (threshold : β) (factor : ℕ) (shiftSel : ℕ → ℕ)
    (obj : List (List (WithBot β))) (hfac : factor ≠ 1) (t : ℕ)
    (ht : t ∈ candTimes nTime threshold obj)
    (hinv : invalidCand obj factor (candUnit obj t) t = true) :
    ((t : ℤ) - ((nTime : ℤ) - 1), candUnit obj t * factor)
        ∈ fpTrain nTime threshold factor shiftSel obj
    ∧ ∀ k < nTime,
        ((turnOffObj nTime factor threshold obj).getD (candUnit obj t) []).getD
          (t - (nTime - 1) + k) ⊥ = ⊥ :=
  ⟨fpTrain_invalid_mem nTime threshold factor shiftSel obj t ht hinv,
    fun k hk => turnOffObj_cell_bot nTime factor threshold obj t hfac ht hinv k hk⟩

/-- Counterexample to C4 as frozen: on c4obj with template length 2,
threshold 1 and up_factor 2, time 3 is the single candidate of the
pass, its upsampling window touches the -inf entry at column 2 (it is
invalid), and yet find_peaks returns it: the returned spike train is
exactly [(2, 0)] (voltage-space time 3 - 1 = 2, fall-back id 0 * 2),
contradicting the claim that such a candidate does not appear in the
returned spike train. -/
theorem C4_invalid_candidate_counterexample :
    candTimes 2 (1 : ℤ) c4obj = [3]
    ∧ invalidCand c4obj 2 (candUnit c4obj 3) 3 = true
    ∧ fpTrain 2 (1 : ℤ) 2 (fun _ => 0) c4obj = [((2 : ℤ), (0 : ℕ))] := by
  refine ⟨by decide, by decide, by decide⟩

/-- Witness for C4 at the concrete objective c4obj. -/
theorem C4_invalid_candidate_fate_witness :
    ((2 : ℕ) ≠ 1 ∧ (3 : ℕ) ∈ candTimes 2 (1 : ℤ) c4obj
        ∧ invalidCand c4obj 2 (candUnit c4obj 3) 3 = true)
    ∧ (((3 : ℤ) - ((2 : ℤ) - 1), candUnit c4obj 3 * 2)
          ∈ fpTrain 2 (1 : ℤ) 2 (fun _ => 0) c4obj
      ∧ ∀ k < 2,
          ((turnOffObj 2 2 (1 : ℤ) c4obj).getD (candUnit c4obj 3) []).getD
            (3 - (2 - 1) + k) ⊥ = ⊥) :=
  ⟨⟨by decide, by decide, by decide⟩,
    C4_invalid_candidate_fate 2 (1 : ℤ) 2 (fun _ => 0) c4obj (by decide) 3
      (by decide) (by decide)⟩

/-- An initial value never exceeds the max-fold over a list. -/
theorem foldl_max_le_init (l : List ℚ) (init : ℚ) : init ≤ l.foldl max init := by
  induction l generalizing init with
  | nil => exact le_refl _
  | cons x t ih => exact le_trans (le_max_left init x) (ih (max init x))

/-- Every member is at most the max-fold. -/
theorem le_foldl_max (l : List ℚ) (init a : ℚ) (h : a ∈ l) :
    a ≤ l.foldl max init := by
  induction l generalizing init with
  | nil => simp at h
  | cons x t ih =>
      rcases List.mem_cons.mp h with rfl | hmem
      · exact le_trans (le_max_right init a) (foldl_max_le_init t (max init a))
      · exact ih (max init x) hmem

/-- The max-fold value is the initial value or some member. -/
theorem foldl_max_mem (l : List ℚ) (init : ℚ) :
    l.foldl max init = init ∨ l.foldl max init ∈ l := by
  induction l generalizing init with
  | nil => exact Or.inl rfl
  | cons x t ih =>
      rcases ih (max init x) with h | h
      · rcases max_cases init x with ⟨hm, _⟩ | ⟨hm, _⟩
        · exact Or.inl (by rw [List.foldl_cons, h, hm])
        · exact Or.inr (by rw [List.foldl_cons, h, hm]; exact List.mem_cons_self x t)
      · exact Or.inr (List.mem_cons_of_mem x h)

/-- Int.log 2 of the rational 4 is 2. -/
theorem intLog_two_four : Int.log 2 (4 : ℚ) = 2 := by
  have h : Nat.log 2 4 = 2 :=
    Nat.log_eq_of_pow_le_of_lt_pow (by norm_num) (by norm_num)
  rw [show (4 : ℚ) = ((4 : ℕ) : ℚ) by norm_num, Int.log_natCast, h]
  norm_num

/-- Int.log 2 of the rational 2 is 1. -/
theorem intLog_two_two : Int.log 2 (2 : ℚ) = 1 := by
  have h : Nat.log 2 2 = 1 :=
    Nat.log_eq_of_pow_le_of_lt_pow (by norm_num) (by norm_num)
  rw [show (2 : ℚ) = ((2 : ℕ) : ℚ) by norm_num, Int.log_natCast, h]
  norm_num

/-- Counterexample to C8 as frozen: with global maximum upsample factor
6 (greater than 1) and two units of peak-to-peak amplitudes 4 and 2,
the global up_factor is min(6, int(16)) = 6 while the second unit's
clamped adaptive factor is 4, which is NOT a divisor of 6: the code
performs no rounding down to a divisor of the global factor, so the
skip stride 6 // 4 = 1 is inexact and the unit's up_up_map row indexes
6 distinct shifts instead of its reduced set of 4. -/
theorem C8_round_to_divisor_counterexample :
    upFactorOf 6 [4, 2] = 6
    ∧ unitUpFactor 6 (2 : ℚ) = 4
    ∧ ¬ ∃ k : ℕ, (k : ℚ) * unitUpFactor 6 (2 : ℚ) = (upFactorOf 6 [4, 2] : ℚ) := by
  have hraw4 : rawFactor 4 = 16 := by
    rw [rawFactor, intLog_two_four]
    norm_num
  have hraw2 : rawFactor 2 = 4 := by
    rw [rawFactor, intLog_two_two]
    norm_num
  have hmax : maxRawFactor [4, 2] = 16 := by
    rw [maxRawFactor]
    simp [hraw4, hraw2]
    norm_num
  have hup : upFactorOf 6 [4, 2] = 6 := by
    rw [upFactorOf, hmax, show (16 : ℚ) = ((16 : ℕ) : ℚ) by norm_num,
      Int.floor_natCast]
    rfl
  have huf : unitUpFactor 6 (2 : ℚ) = 4 := by
    rw [unitUpFactor, hraw2, if_neg (by norm_num)]
    norm_num
  refine ⟨hup, huf, ?_⟩
  rintro ⟨k, hk⟩
  rw [huf, hup] at hk
  have h2 : ((2 * k : ℕ) : ℚ) = 3 := by
    push_cast
    push_cast at hk
    linarith
  have h3 : 2 * k = 3 := by exact_mod_cast h2
  omega

/-- A raw factor of a ptp below 1 (or nonpositive) is at most 1. -/
theorem rawFactor_le_one (p : ℚ) (hp : p < 1) : rawFactor p ≤ 1 := by
  by_cases hp0 : 0 < p
  · have hlog : Int.log 2 p < 0 := by
      by_contra hc
      push_neg at hc
      have h2 : (1 : ℚ) ≤ 2 := by norm_num
      have h1 : (1 : ℚ) ≤ (2 : ℚ) ^ Int.log 2 p := one_le_zpow₀ h2 hc
      have h3 : (2 : ℚ) ^ Int.log 2 p ≤ p := Int.zpow_log_le_self (by norm_num) hp0
      linarith
    rw [rawFactor]
    have h4 : (1 : ℚ) ≤ 4 := by norm_num
    have h5 : (4 : ℚ) ^ Int.log 2 p ≤ (4 : ℚ) ^ (0 : ℤ) :=
      zpow_le_zpow_right₀ h4 (by omega)
    simpa using h5
  · push_neg at hp0
    rw [rawFactor, Int.log_of_right_le_zero 2 hp0]
    norm_num

/-- The raw factor of a ptp at least 1 is the natural power
2 ^ (2 * floor(log2 ptp)). -/
theorem rawFactor_eq_pow (p : ℚ) (hp : 1 ≤ p) :
    rawFactor p = ((2 ^ (2 * (Int.log 2 p).toNat) : ℕ) : ℚ) := by
  have hm : 0 ≤ Int.log 2 p := by
    rw [Int.log_of_one_le_right 2 hp]
    exact Int.natCast_nonneg _
  calc rawFactor p
      = (4 : ℚ) ^ (((Int.log 2 p).toNat : ℤ)) := by
        rw [rawFactor]
        exact congrArg (fun z => (4 : ℚ) ^ z) (Int.toNat_of_nonneg hm).symm
    _ = (4 : ℚ) ^ ((Int.log 2 p).toNat) := zpow_natCast _ _
    _ = (2 : ℚ) ^ (2 * (Int.log 2 p).toNat) := by
        rw [show (4 : ℚ) = 2 ^ 2 by norm_num, ← pow_mul]
    _ = ((2 ^ (2 * (Int.log 2 p).toNat) : ℕ) : ℚ) := by
        push_cast
        ring

/-- C8 (amended): for a global maximum upsample factor that is a power
of two greater than 1 (such as the default 8), and any templates array
in which at least one unit has peak-to-peak amplitude at least 1, every
unit's clamped adaptive factor (a power of the base 4 derived from the
unit's ptp, capped by the maximum, at least 1) divides the global
up_factor exactly: some positive integer stride k times the unit's
factor equals the global factor, so the skip stride up_factor //
unit_factor is exact and the unit's up_up_map row covers exactly its
reduced set of shifts. (As frozen the claim asserted this for EVERY
global maximum greater than 1, but the code performs no rounding down
to a divisor: for maximum 6 and a unit of ptp 2 the factor 4 does not
divide the global factor 6 — see the counterexample.) -/
theorem C8_unit_factor_divides (e : ℕ) (_hexp : 1 ≤ e) (ptps : List ℚ)
    (hone : ∃ p ∈ ptps, 1 ≤ p) (ptp : ℚ) (hmem : ptp ∈ ptps) :
    ∃ k : ℕ, 0 < k
      ∧ (k : ℚ) * unitUpFactor (2 ^ e) ptp = (upFactorOf (2 ^ e) ptps : ℚ) := by
  obtain ⟨q, hq, hq1⟩ := hone
  have hq_raw : (1 : ℚ) ≤ rawFactor q := by
    rw [rawFactor_eq_pow q hq1]
    exact_mod_cast Nat.one_le_two_pow
  have hmax_ge1 : (1 : ℚ) ≤ maxRawFactor ptps :=
    le_trans hq_raw (le_foldl_max _ _ _ (List.mem_map_of_mem rawFactor hq))
  obtain ⟨a, ha⟩ : ∃ a : ℕ, maxRawFactor ptps = ((2 ^ a : ℕ) : ℚ) := by
    rcases foldl_max_mem (ptps.map rawFactor) 0 with h0 | hmem2
    · rw [maxRawFactor, h0] at hmax_ge1
      norm_num at hmax_ge1
    · obtain ⟨w, hw, hwe⟩ := List.mem_map.mp hmem2
      by_cases hw1 : 1 ≤ w
      · refine ⟨2 * (Int.log 2 w).toNat, ?_⟩
        rw [maxRawFactor, ← hwe, rawFactor_eq_pow w hw1]
      · have hw1 : w < 1 := lt_of_not_le hw1
        have hle1 : maxRawFactor ptps ≤ 1 := by
          rw [maxRawFactor, ← hwe]
          exact rawFactor_le_one w hw1
        refine ⟨0, ?_⟩
        rw [le_antisymm hle1 hmax_ge1]
        norm_num
  have hM : Int.toNat ⌊maxRawFactor ptps⌋ = 2 ^ a := by
    rw [ha, Int.floor_natCast, Int.toNat_natCast]
  have hF : upFactorOf (2 ^ e) ptps = 2 ^ min e a := by
    rw [upFactorOf, hM]
    rcases le_total e a with h | h
    · rw [min_eq_left (Nat.pow_le_pow_right (by norm_num) h), min_eq_left h]
    · rw [min_eq_right (Nat.pow_le_pow_right (by norm_num) h), min_eq_right h]
  have hle_max : rawFactor ptp ≤ maxRawFactor ptps :=
    le_foldl_max _ _ _ (List.mem_map_of_mem rawFactor hmem)
  by_cases hp1 : 1 ≤ ptp
  · have hraw : rawFactor ptp = ((2 ^ (2 * (Int.log 2 ptp).toNat) : ℕ) : ℚ) :=
      rawFactor_eq_pow ptp hp1
    have hm2a : 2 * (Int.log 2 ptp).toNat ≤ a := by
      rw [hraw, ha] at hle_max
      have hc := Nat.cast_le.mp hle_max
      exact (Nat.pow_le_pow_iff_right (by norm_num)).mp hc
    by_cases hbig : ((2 ^ e : ℕ) : ℚ) < rawFactor ptp
    · have hem2 : e < 2 * (Int.log 2 ptp).toNat := by
        rw [hraw] at hbig
        have hc : (2 ^ e : ℕ) < 2 ^ (2 * (Int.log 2 ptp).toNat) := by
          exact_mod_cast hbig
        exact (Nat.pow_lt_pow_iff_right (by norm_num)).mp hc
      have hea : e ≤ a := le_trans (le_of_lt hem2) hm2a
      have hclamp : unitUpFactor (2 ^ e) ptp = ((2 ^ e : ℕ) : ℚ) := by
        rw [unitUpFactor, if_pos hbig]
        exact max_eq_right (by exact_mod_cast Nat.one_le_two_pow)
      refine ⟨1, by omega, ?_⟩
      rw [hclamp, hF, min_eq_left hea]
      push_cast
      ring
    · push_neg at hbig
      have hm2e : 2 * (Int.log 2 ptp).toNat ≤ e := by
        rw [hraw] at hbig
        have hc : 2 ^ (2 * (Int.log 2 ptp).toNat) ≤ (2 ^ e : ℕ) := by
          exact_mod_cast hbig
        exact (Nat.pow_le_pow_iff_right (by norm_num)).mp hc
      have hclamp : unitUpFactor (2 ^ e) ptp
          = ((2 ^ (2 * (Int.log 2 ptp).toNat) : ℕ) : ℚ) := by
        rw [unitUpFactor, if_neg (not_lt.mpr hbig), hraw]
        exact max_eq_right (by exact_mod_cast Nat.one_le_two_pow)
      refine ⟨2 ^ (min e a - 2 * (Int.log 2 ptp).toNat), by positivity, ?_⟩
      rw [hclamp, hF]
      push_cast
      rw [← pow_add]
      congr 1
      omega
  · push_neg at hp1
    have hraw1 : rawFactor ptp ≤ 1 := rawFactor_le_one ptp hp1
    have hclamp : unitUpFactor (2 ^ e) ptp = 1 := by
      rw [unitUpFactor,
        if_neg (not_lt.mpr (le_trans hraw1 (by exact_mod_cast Nat.one_le_two_pow)))]
      exact max_eq_left hraw1
    refine ⟨2 ^ min e a, by positivity, ?_⟩
    rw [hclamp, hF]
    push_cast
    ring

/-- Witness for C8 at maximum upsample factor 8 (a power of two) and
units of ptp 4 and 2: the global factor is min(8, 16) = 8 and the unit
of ptp 2 has clamped factor 4, with exact stride k = 2. -/
theorem C8_unit_factor_divides_witness :
    ((1 : ℕ) ≤ 3 ∧ (∃ p ∈ [(4 : ℚ), 2], 1 ≤ p) ∧ (2 : ℚ) ∈ [(4 : ℚ), 2])
    ∧ ∃ k : ℕ, 0 < k
        ∧ (k : ℚ) * unitUpFactor (2 ^ 3) (2 : ℚ) = (upFactorOf (2 ^ 3) [(4 : ℚ), 2] : ℚ) :=
  ⟨⟨by norm_num, ⟨4, by norm_num, by norm_num⟩, by norm_num⟩,
    C8_unit_factor_divides 3 (by norm_num) [(4 : ℚ), 2]
      ⟨4, by norm_num, by norm_num⟩ (2 : ℚ) (by norm_num)⟩

end Dartsort
